import Mathlib

/-!
Verification of the QuBindR two-phase matching/optimization engine.

This development is a shallow embedding of the core of the repository:
`src/qutypes.py` (data model), `src/constraint_utils.py` (property
resolution and expression evaluation), `src/qubind.py` (matching and
optimization phases, figure-of-merit computation) and the ranking block
of `src/api.py`.

Modelling conventions:
- Python `str` is modelled as `List Char`; string literals appear as
  `"...".data`.
- Python `float` values are modelled as real numbers (`ℝ`); exact
  IEEE-754 rounding is not modelled.  Numeric literals in source
  expressions are parsed into exact rationals and injected into `ℝ`.
- Python exceptions are modelled by `Except PyErr`; an exception's
  identity is kept, its message text is not.
- Python dictionaries are modelled as association lists in insertion
  order, and Python sets as lists of their elements.
-/

namespace QuBind

/-- The exceptions raised by the engine and its helpers.  Each
constructor corresponds to one `raise` site (or builtin error) in the
source; message strings are not modelled, but the dynamic parts that
identify the error (the property path, the unsupported name) are kept. -/
inductive PyErr where
  /-- `ValueError(f"Property {property_path} not found in object")` in
  `get_nested_property`. -/
  | propertyNotFound (path : List Char)
  /-- `ValueError(f"Computed property {prop_name} not supported")`. -/
  | computedNotSupported (name : List Char)
  /-- `ValueError("Engine required for computed properties")`. -/
  | engineRequired
  /-- `ValueError("No feasible QPUs found")` in `optimization_phase`. -/
  | noFeasible
  /-- `ValueError("Weights must sum to 1.0, ...")` raised by
  `OptimizationWeights.model_post_init`. -/
  | invalidWeights
  /-- A pydantic field-bound violation at construction. -/
  | validationError
  /-- A Python `TypeError` (incomparable operand types, non-iterable
  operand of a collection operator, ...). -/
  | typeError
  /-- A Python `ZeroDivisionError`. -/
  | zeroDivision
  deriving DecidableEq, Repr

/-- The characters removed by Python `str.strip()` (ASCII whitespace;
the exotic Unicode whitespace code points are not modelled since they
cannot occur in the engine's expressions). -/
def isPySpace (c : Char) : Bool :=
  c = ' ' || c = '\t' || c = '\n' || c = '\r' || c = '\x0b' || c = '\x0c'

/-- Python `str.strip()`: remove leading and trailing whitespace. -/
def pyStrip (l : List Char) : List Char :=
  ((l.dropWhile isPySpace).reverse.dropWhile isPySpace).reverse

/-- Python substring containment `needle in hay` (also used for the
`"." in property_path` and marker checks): true iff `needle` occurs as a
contiguous substring of `hay`. -/
def pyContains (needle : List Char) : List Char → Bool
  | [] => needle.isEmpty
  | c :: rest => needle.isPrefixOf (c :: rest) || pyContains needle rest

/-- Python `str.split(sep)` for a non-empty separator: cut at each
leftmost non-overlapping occurrence of `sep`.  (Python raises on an
empty separator; for totality an empty separator here never matches, a
case no call site exercises.) -/
def pySplit (sep : List Char) (l : List Char) : List (List Char) :=
  match l with
  | [] => [[]]
  | c :: rest =>
    if sep ≠ [] ∧ sep.isPrefixOf (c :: rest) then
      [] :: pySplit sep (List.drop (sep.length - 1) rest)
    else
      match pySplit sep rest with
      | [] => [[c]]
      | p :: ps => (c :: p) :: ps
  termination_by l.length
  decreasing_by
    · have := List.length_drop (sep.length - 1) rest
      simp
      omega
    · simp

/-- Join a list of parts with a separator between consecutive parts;
the left inverse of `pySplit`. -/
def joinSep (sep : List Char) : List (List Char) → List Char
  | [] => []
  | [p] => p
  | p :: q :: ps => p ++ sep ++ joinSep sep (q :: ps)

/-- The numeric value of a digit string read most-significant first. -/
def digitsToNat : List Char → Nat → Nat
  | [], acc => acc
  | c :: rest, acc => digitsToNat rest (acc * 10 + (c.toNat - '0'.toNat))

/-- A non-empty all-digit string, or failure. -/
def parseUnsignedDigits (l : List Char) : Option Nat :=
  if l.isEmpty || !(l.all Char.isDigit) then none else some (digitsToNat l 0)

/-- An optionally signed non-empty digit string, or failure (the
exponent part of a Python float literal). -/
def parseSignedDigits : List Char → Option Int
  | '+' :: rest => (parseUnsignedDigits rest).map Int.ofNat
  | '-' :: rest => (parseUnsignedDigits rest).map fun n => -(n : Int)
  | l => (parseUnsignedDigits l).map Int.ofNat

/-- First maximal run of digits and the remainder. -/
def spanDigits (l : List Char) : List Char × List Char :=
  (l.takeWhile Char.isDigit, l.dropWhile Char.isDigit)

/-- The unsigned part of Python's `float()` literal grammar:
`digits [. digits] [e signed-digits]` or `. digits [e signed-digits]`,
evaluated exactly as a rational.  (`inf`, `nan` and underscore
separators are accepted by Python but not modelled; no engine
expression uses them.) -/
def parseMantissaExp (l : List Char) : Option ℚ :=
  let ip := (spanDigits l).1
  let rest1 := (spanDigits l).2
  let ipv : ℚ := (digitsToNat ip 0 : ℕ)
  match rest1 with
  | [] => if ip.isEmpty then none else some ipv
  | '.' :: rest2 =>
    let fp := (spanDigits rest2).1
    let rest3 := (spanDigits rest2).2
    if ip.isEmpty && fp.isEmpty then none
    else
      let base : ℚ := ipv + (digitsToNat fp 0 : ℕ) / (10 : ℚ) ^ fp.length
      match rest3 with
      | [] => some base
      | 'e' :: rest4 => (parseSignedDigits rest4).map fun k => base * (10 : ℚ) ^ k
      | 'E' :: rest4 => (parseSignedDigits rest4).map fun k => base * (10 : ℚ) ^ k
      | _ => none
  | 'e' :: rest4 =>
    if ip.isEmpty then none
    else (parseSignedDigits rest4).map fun k => ipv * (10 : ℚ) ^ k
  | 'E' :: rest4 =>
    if ip.isEmpty then none
    else (parseSignedDigits rest4).map fun k => ipv * (10 : ℚ) ^ k
  | _ => none

/-- Python `float(s)`: strip whitespace, then an optionally signed
mantissa with optional exponent. -/
def pyFloatCore : List Char → Option ℚ
  | '+' :: rest => parseMantissaExp rest
  | '-' :: rest => (parseMantissaExp rest).map Neg.neg
  | l => parseMantissaExp l

/-- Python `float(s)` including its tolerance for surrounding
whitespace. -/
def pyFloat (l : List Char) : Option ℚ :=
  pyFloatCore (pyStrip l)

/-- Python `int(s)` on a stripped string: optional sign, digits. -/
def pyIntCore : List Char → Option Int
  | '+' :: rest => (parseUnsignedDigits rest).map Int.ofNat
  | '-' :: rest => (parseUnsignedDigits rest).map fun n => -(n : Int)
  | l => (parseUnsignedDigits l).map Int.ofNat

/-- Python `int(s)` including its tolerance for surrounding
whitespace. -/
def pyInt (l : List Char) : Option Int :=
  pyIntCore (pyStrip l)

/-- The dynamic values flowing through constraint evaluation: the
field types of `QPUResource` and `QuantumCircuit` plus the numbers and
strings produced by expression evaluation.  `num` covers Python `int`
and `float` (which compare equal when equal-valued, as in Python);
dictionaries keep the key type of the source field (`GateType`, a
string enum, or `int`). -/
inductive Value where
  | num (x : ℝ)
  | str (s : List Char)
  | bool (b : Bool)
  | strSet (elems : List (List Char))
  | intSet (elems : List Int)
  | strDict (entries : List (List Char × ℝ))
  | intDict (entries : List (Int × ℝ))

/-- Numeric view used by Python arithmetic and ordering: `bool` is an
`int` subclass in Python, so `True` acts as 1 and `False` as 0. -/
noncomputable def numOf : Value → Option ℝ
  | .num x => some x
  | .bool b => some (if b then 1 else 0)
  | _ => none

/-- Membership of a string in a list of strings (set-element test). -/
def strElem (s : List Char) (l : List (List Char)) : Bool :=
  l.any fun t => t = s

/-- `a` is a subset of `b`, both viewed as sets of strings. -/
def strSubset (a b : List (List Char)) : Bool :=
  a.all fun s => strElem s b

/-- `a` is a subset of `b`, both viewed as sets of integers. -/
def intSubset (a b : List Int) : Bool :=
  a.all fun i => b.any fun j => j = i

open Classical in
/-- Python `==` on the modelled value universe: numbers (and booleans,
which Python compares as 0/1) by value, strings by characters, sets by
extension, dictionaries by key-value pairs; values of incomparable
kinds compare unequal (Python `==` never raises here). -/
noncomputable def pyEq : Value → Value → Bool
  | .num a, .num b => decide (a = b)
  | .num a, .bool b => decide (a = if b then 1 else 0)
  | .bool a, .num b => decide ((if a then 1 else (0 : ℝ)) = b)
  | .bool a, .bool b => a == b
  | .str a, .str b => a == b
  | .strSet a, .strSet b => strSubset a b && strSubset b a
  | .intSet a, .intSet b => intSubset a b && intSubset b a
  | .strDict a, .strDict b =>
    (a.all fun kv => decide (b.lookup kv.1 = some kv.2)) &&
      (b.all fun kv => decide (a.lookup kv.1 = some kv.2))
  | .intDict a, .intDict b =>
    (a.all fun kv => decide (b.lookup kv.1 = some kv.2)) &&
      (b.all fun kv => decide (a.lookup kv.1 = some kv.2))
  | _, _ => false

open Classical in
/-- Python `<`: numeric on numbers/booleans, lexicographic on strings,
proper subset on sets; anything else (including dictionaries, as in
Python) raises `TypeError`. -/
noncomputable def pyLt (a b : Value) : Except PyErr Bool :=
  match numOf a, numOf b with
  | some x, some y => .ok (decide (x < y))
  | _, _ =>
    match a, b with
    | .str s, .str t => .ok (decide (s < t))
    | .strSet s, .strSet t => .ok (strSubset s t && !strSubset t s)
    | .intSet s, .intSet t => .ok (intSubset s t && !intSubset t s)
    | _, _ => .error .typeError

open Classical in
/-- Python `<=`: numeric, lexicographic, or subset. -/
noncomputable def pyLe (a b : Value) : Except PyErr Bool :=
  match numOf a, numOf b with
  | some x, some y => .ok (decide (x ≤ y))
  | _, _ =>
    match a, b with
    | .str s, .str t => .ok (decide (s < t || s == t))
    | .strSet s, .strSet t => .ok (strSubset s t)
    | .intSet s, .intSet t => .ok (intSubset s t)
    | _, _ => .error .typeError

open Classical in
/-- Python `>`: numeric, lexicographic, or proper superset. -/
noncomputable def pyGt (a b : Value) : Except PyErr Bool :=
  match numOf a, numOf b with
  | some x, some y => .ok (decide (y < x))
  | _, _ =>
    match a, b with
    | .str s, .str t => .ok (decide (t < s))
    | .strSet s, .strSet t => .ok (strSubset t s && !strSubset s t)
    | .intSet s, .intSet t => .ok (intSubset t s && !intSubset s t)
    | _, _ => .error .typeError

open Classical in
/-- Python `>=`: numeric, lexicographic, or superset. -/
noncomputable def pyGe (a b : Value) : Except PyErr Bool :=
  match numOf a, numOf b with
  | some x, some y => .ok (decide (y ≤ x))
  | _, _ =>
    match a, b with
    | .str s, .str t => .ok (decide (t < s || s == t))
    | .strSet s, .strSet t => .ok (strSubset t s)
    | .intSet s, .intSet t => .ok (intSubset t s)
    | _, _ => .error .typeError

/-- Python `x in container`: substring test on strings, membership
(with Python equality, so booleans match their numeric value) on sets
and on dictionary keys; numbers and booleans are not containers and
raise `TypeError`. -/
noncomputable def pyIn (x : Value) : Value → Except PyErr Bool
  | .str s =>
    match x with
    | .str sub => .ok (pyContains sub s)
    | _ => .error .typeError
  | .strSet es => .ok (es.any fun e => pyEq x (.str e))
  | .intSet es => .ok (es.any fun e => pyEq x (.num e))
  | .strDict es => .ok (es.any fun kv => pyEq x (.str kv.1))
  | .intDict es => .ok (es.any fun kv => pyEq x (.num kv.1))
  | _ => .error .typeError

/-- Python iteration over a container, yielding its elements (for a
string its one-character substrings, for a dictionary its keys); the
coercion used by `set(...)` and by iteration in the `contains`
operator.  Numbers and booleans are not iterable. -/
noncomputable def pyIterate : Value → Except PyErr (List Value)
  | .str s => .ok (s.map fun c => .str [c])
  | .strSet es => .ok (es.map .str)
  | .intSet es => .ok (es.map fun i => .num i)
  | .strDict es => .ok (es.map fun kv => .str kv.1)
  | .intDict es => .ok (es.map fun kv => .num kv.1)
  | _ => .error .typeError

/-- The `CONTAINS` operator:
`all(item in property_value for item in comparison_value)`.  The
generator short-circuits at the first failing item, as in Python. -/
noncomputable def pyContainsAll (pv cv : Value) : Except PyErr Bool := do
  let items ← pyIterate cv
  items.allM fun item => pyIn item pv

/-- The `SUBSET` operator:
`set(property_value).issubset(set(comparison_value))`. -/
noncomputable def pySubsetOp (pv cv : Value) : Except PyErr Bool := do
  let ps ← pyIterate pv
  let cs ← pyIterate cv
  .ok (ps.all fun p => cs.any fun c => pyEq p c)

/-- The `SUPERSET` operator:
`set(property_value).issuperset(set(comparison_value))`. -/
noncomputable def pySupersetOp (pv cv : Value) : Except PyErr Bool := do
  let ps ← pyIterate pv
  let cs ← pyIterate cv
  .ok (cs.all fun c => ps.any fun p => pyEq c p)

/-- Python `left * right` as it can arise in `evaluate_expression`:
numeric multiplication (booleans coerced); any other operand kinds
raise `TypeError`.  (Python's string-repetition `str * int` cannot
arise from the evaluator's float right-hand sides and is not
modelled.) -/
noncomputable def pyMulVals (a b : Value) : Except PyErr Value :=
  match numOf a, numOf b with
  | some x, some y => .ok (.num (x * y))
  | _, _ => .error .typeError

open Classical in
/-- Python `left / right`: numeric division, raising
`ZeroDivisionError` on a zero divisor. -/
noncomputable def pyDivVals (a b : Value) : Except PyErr Value :=
  match numOf a, numOf b with
  | some x, some y => if y = 0 then .error .zeroDivision else .ok (.num (x / y))
  | _, _ => .error .typeError

/-- Python `left + right`: numeric addition, or string
concatenation when both operands are strings. -/
noncomputable def pyAddVals (a b : Value) : Except PyErr Value :=
  match numOf a, numOf b with
  | some x, some y => .ok (.num (x + y))
  | _, _ =>
    match a, b with
    | .str s, .str t => .ok (.str (s ++ t))
    | _, _ => .error .typeError

/-- Python `left - right`: numeric subtraction only. -/
noncomputable def pySubVals (a b : Value) : Except PyErr Value :=
  match numOf a, numOf b with
  | some x, some y => .ok (.num (x - y))
  | _, _ => .error .typeError

/-- `QuantumCircuit` from `qutypes.py`: the workload description.
Gate kinds are the string values of the `GateType` enum.  `gate_counts`
and `measurements` are occurrence counts (natural numbers, per the data
model); pydantic validates `qubits_required > 0`, `shots > 0` and
`depth >= 0` at construction, which no claim here depends on. -/
structure QuantumCircuit where
  id : List Char
  name : List Char
  qubits_required : Int
  shots : Int
  gate_counts : List (List Char × Nat)
  depth : Int
  qubits_used : List Int
  measurements : List (Int × Nat)

/-- `QPUResource` from `qutypes.py`.  The `cost` field models the
opaque per-resource cost callable (`_cost_fn`); `workload` is the
pending-job counter, validated non-negative by pydantic
(`Field(ge=0)`), hence `Nat`.  The bound `cost` method and pydantic
metadata attributes are not modelled as dotted-path targets. -/
structure QPUResource where
  id : List Char
  name : List Char
  provider : List Char
  qubits : Int
  native_gates : List (List Char)
  gate_fidelities : List (List Char × ℝ)
  readout_fidelities : List (Int × ℝ)
  max_depth : Int
  max_shots : Int
  workload : Nat
  available : Bool
  cost : QuantumCircuit → ℝ

/-- `OptimizationWeights` from `qutypes.py` (the three weight fields of
an already-constructed instance). -/
structure OptimizationWeights where
  cost_weight : ℝ
  error_weight : ℝ
  workload_weight : ℝ

open Classical in
/-- Construction of `OptimizationWeights`: pydantic first checks each
field bound (`ge=0, le=1`), then `model_post_init` requires
`math.isclose(total, 1.0, rel_tol=1e-6)`, that is
`|total - 1| <= 1e-6 * max(|total|, 1)` (`abs_tol` defaults to 0).
The float literal `1e-6` is modelled by the exact rational.  Accepted
weights are stored unchanged. -/
noncomputable def mkOptimizationWeights (c e w : ℝ) : Except PyErr OptimizationWeights :=
  if 0 ≤ c ∧ c ≤ 1 ∧ 0 ≤ e ∧ e ≤ 1 ∧ 0 ≤ w ∧ w ≤ 1 then
    if |c + e + w - 1| ≤ (1 / 1000000) * max |c + e + w| 1 then
      .ok ⟨c, e, w⟩
    else
      .error .invalidWeights
  else
    .error .validationError

/-- `QuBindEngine.__init__`: the engine holds the resource pool. -/
structure QuBindEngine where
  qpus : List QPUResource

/-- `QuBindEngine._normalize_cost`: logistic squashing of the raw cost
into `(0, 1)`, centred at cost 100. -/
noncomputable def normalize_cost (cost : ℝ) : ℝ :=
  1 / (1 + Real.exp (-(1 / 100) * (cost - 100)))

/-- `QuBindEngine._calculate_fidelity`: returns 1.0 for an empty
gate-count mapping; otherwise the product of `gate_fidelity ^ count`
over gate kinds present in the resource's table times the product of
`readout_fidelity ^ measurements` over measured qubits present in the
readout table.  `List.lookup` models the `in`-guarded dictionary
access. -/
noncomputable def calculate_fidelity (qpu : QPUResource) (circuit : QuantumCircuit) : ℝ :=
  if circuit.gate_counts.isEmpty then 1
  else
    (circuit.gate_counts.foldl (fun acc gc =>
      match qpu.gate_fidelities.lookup gc.1 with
      | some f => acc * f ^ gc.2
      | none => acc) 1) *
    (circuit.measurements.foldl (fun acc m =>
      match qpu.readout_fidelities.lookup m.1 with
      | some f => acc * f ^ m.2
      | none => acc) 1)

/-- `QuBindEngine._normalize_workload`: `min(1.0, workload / 100.0)`. -/
noncomputable def normalize_workload (workload : Nat) : ℝ :=
  min 1 ((workload : ℝ) / 100)

/-- `QuBindEngine._calculate_cost`: delegate to the resource's own cost
callable. -/
noncomputable def calculate_cost (qpu : QPUResource) (circuit : QuantumCircuit) : ℝ :=
  qpu.cost circuit

/-- `QuBindEngine._calculate_figure_of_merit`: the weighted objective
over normalized cost, error (one minus fidelity) and normalized
workload. -/
noncomputable def calculate_figure_of_merit (qpu : QPUResource) (circuit : QuantumCircuit)
    (weights : OptimizationWeights) : ℝ :=
  weights.cost_weight * normalize_cost (calculate_cost qpu circuit)
    + weights.error_weight * (1 - calculate_fidelity qpu circuit)
    + weights.workload_weight * normalize_workload qpu.workload

/-- The five computed (derived) properties shared verbatim by
`Constraint.evaluate` and `evaluate_expression`: `fidelity`, `cost`,
`normalized_cost`, `normalized_workload`, `circuit_depth`; any other
name raises. -/
noncomputable def computed_property (qpu : QPUResource) (circuit : QuantumCircuit)
    (name : List Char) : Except PyErr Value :=
  if name = "fidelity".data then .ok (.num (calculate_fidelity qpu circuit))
  else if name = "cost".data then .ok (.num (qpu.cost circuit))
  else if name = "normalized_cost".data then .ok (.num (normalize_cost (qpu.cost circuit)))
  else if name = "normalized_workload".data then .ok (.num (normalize_workload qpu.workload))
  else if name = "circuit_depth".data then .ok (.num circuit.depth)
  else .error (.computedNotSupported name)

/-- A root object for dotted-path resolution (`get_nested_property` is
only ever called with a `QPUResource` or a `QuantumCircuit` root). -/
inductive PropRoot where
  | qpu (q : QPUResource)
  | circuit (c : QuantumCircuit)

/-- Attribute lookup on a `QPUResource` (the pydantic model fields).
The bound method `cost` is not modelled as an attribute. -/
def qpuAttr (q : QPUResource) (a : List Char) : Option Value :=
  if a = "id".data then some (.str q.id)
  else if a = "name".data then some (.str q.name)
  else if a = "provider".data then some (.str q.provider)
  else if a = "qubits".data then some (.num q.qubits)
  else if a = "native_gates".data then some (.strSet q.native_gates)
  else if a = "gate_fidelities".data then some (.strDict q.gate_fidelities)
  else if a = "readout_fidelities".data then some (.intDict q.readout_fidelities)
  else if a = "max_depth".data then some (.num q.max_depth)
  else if a = "max_shots".data then some (.num q.max_shots)
  else if a = "workload".data then some (.num q.workload)
  else if a = "available".data then some (.bool q.available)
  else none

/-- Attribute lookup on a `QuantumCircuit`. -/
def circuitAttr (c : QuantumCircuit) (a : List Char) : Option Value :=
  if a = "id".data then some (.str c.id)
  else if a = "name".data then some (.str c.name)
  else if a = "qubits_required".data then some (.num c.qubits_required)
  else if a = "shots".data then some (.num c.shots)
  else if a = "gate_counts".data then
    some (.strDict (c.gate_counts.map fun gc => (gc.1, (gc.2 : ℝ))))
  else if a = "depth".data then some (.num c.depth)
  else if a = "qubits_used".data then some (.intSet c.qubits_used)
  else if a = "measurements".data then
    some (.intDict (c.measurements.map fun m => (m.1, (m.2 : ℝ))))
  else none

/-- Attribute lookup on either root object. -/
def rootAttr : PropRoot → List Char → Option Value
  | .qpu q, a => qpuAttr q a
  | .circuit c, a => circuitAttr c a

/-- The walker state of `get_nested_property`: the root object or an
intermediate value. -/
inductive Walker where
  | root (r : PropRoot)
  | val (v : Value)

/-- One step of the dotted-path walk: `hasattr`/`getattr` on the root
objects, and otherwise a key lookup when the current value is a
mapping.  A string path segment never matches an `int`-keyed mapping
(as in Python, where `"0" in {0: ...}` is false).  Attributes of
builtin values (such as `float.real`) and dict methods are not
modelled.  `path` is only the text of the error. -/
def walkStep (path : List Char) (cur : Walker) (part : List Char) : Except PyErr Walker :=
  match cur with
  | .root r =>
    match rootAttr r part with
    | some v => .ok (.val v)
    | none => .error (.propertyNotFound path)
  | .val v =>
    match v with
    | .strDict es =>
      match es.lookup part with
      | some x => .ok (.val (.num x))
      | none => .error (.propertyNotFound path)
    | _ => .error (.propertyNotFound path)

/-- The walk over all path segments. -/
def walkParts (path : List Char) : List (List Char) → Walker → Except PyErr Value
  | [], cur =>
    match cur with
    | .val v => .ok v
    | .root _ => .error (.propertyNotFound path)
  | p :: ps, cur =>
    match walkStep path cur p with
    | .ok next => walkParts path ps next
    | .error err => .error err

/-- `get_nested_property` from `constraint_utils.py`: resolve a
dot-notation path against a root object, failing with the
`Property ... not found` error when any segment is absent.  (The
zero-segment result of the dotted branch cannot occur: `pySplit`
always yields at least one part.) -/
def get_nested_property (root : PropRoot) (path : List Char) : Except PyErr Value :=
  if pyContains ".".data path then
    walkParts path (pySplit ".".data path) (.root root)
  else
    match rootAttr root path with
    | some v => .ok v
    | none => .error (.propertyNotFound path)

theorem pySplit_ne_nil (sep l : List Char) : pySplit sep l ≠ [] := by
  match l with
  | [] => rw [pySplit]; simp
  | c :: rest =>
    rw [pySplit]
    split
    · simp
    · match h : pySplit sep rest with
      | [] => simp
      | p :: ps => simp

theorem pyStrip_length_le (l : List Char) : (pyStrip l).length ≤ l.length := by
  unfold pyStrip
  calc ((l.dropWhile isPySpace).reverse.dropWhile isPySpace).reverse.length
      = ((l.dropWhile isPySpace).reverse.dropWhile isPySpace).length := by
        rw [List.length_reverse]
    _ ≤ (l.dropWhile isPySpace).reverse.length := (List.dropWhile_sublist _).length_le
    _ = (l.dropWhile isPySpace).length := by rw [List.length_reverse]
    _ ≤ l.length := (List.dropWhile_sublist _).length_le

theorem joinSep_pySplit (sep : List Char) (l : List Char) :
    joinSep sep (pySplit sep l) = l := by
  generalize hn : l.length = n
  induction n using Nat.strong_induction_on generalizing l with
  | _ n ih =>
    match l with
    | [] => simp [pySplit, joinSep]
    | c :: rest =>
      rw [pySplit]
      split
      next h =>
        have hpre : sep <+: c :: rest := by
          rw [← List.isPrefixOf_iff_prefix]; exact h.2
        obtain ⟨t, ht⟩ := hpre
        have hsep1 : 1 ≤ sep.length := by
          cases sep with
          | nil => exact absurd rfl h.1
          | cons s ss => simp
        have hdrop : List.drop (sep.length - 1) rest = t := by
          have : List.drop sep.length (c :: rest) = t := by
            rw [← ht, List.drop_left]
          rw [← this]
          obtain ⟨m, hm⟩ := Nat.exists_eq_add_of_le hsep1
          rw [hm]
          simp [Nat.add_comm 1 m]
        have hlen2 : sep.length + t.length = rest.length + 1 := by
          have := congrArg List.length ht
          simpa using this
        have htlen : t.length < n := by
          have hn2 : rest.length + 1 = n := by simpa using hn
          omega
        rw [hdrop]
        match hq : pySplit sep t with
        | [] => exact absurd hq (pySplit_ne_nil sep t)
        | q :: qs =>
          show ([] : List Char) ++ sep ++ joinSep sep (q :: qs) = c :: rest
          have : joinSep sep (q :: qs) = t := by
            rw [← hq]; exact ih t.length htlen t rfl
          rw [this]
          simpa using ht
      next h =>
        have hrlen : rest.length < n := by simp at hn; omega
        have hrest : joinSep sep (pySplit sep rest) = rest :=
          ih rest.length hrlen rest rfl
        match hq : pySplit sep rest with
        | [] => exact absurd hq (pySplit_ne_nil sep rest)
        | [p] =>
          rw [hq] at hrest
          simp [joinSep] at hrest ⊢
          exact hrest
        | p :: q :: qs =>
          rw [hq] at hrest
          show joinSep sep ((c :: p) :: q :: qs) = c :: rest
          show (c :: p) ++ sep ++ joinSep sep (q :: qs) = c :: rest
          have : p ++ sep ++ joinSep sep (q :: qs) = rest := hrest
          simpa using this

/-- A two-part split decomposes the string around the separator. -/
theorem pySplit_two {sep l a b : List Char} (h : pySplit sep l = [a, b]) :
    l = a ++ sep ++ b := by
  have := joinSep_pySplit sep l
  rw [h] at this
  simpa [joinSep] using this.symm

/-- When a non-empty separator does not occur, the split is the whole
string. -/
theorem pySplit_of_not_contains {sep : List Char} (hsep : sep ≠ []) :
    ∀ {l : List Char}, pyContains sep l = false → pySplit sep l = [l]
  | [], _ => by rw [pySplit]
  | c :: rest, h => by
    rw [pyContains, Bool.or_eq_false_iff] at h
    rw [pySplit]
    rw [if_neg (by
      intro hc
      rw [hc.2] at h
      simp at h)]
    rw [pySplit_of_not_contains hsep h.2]

/-- A split with at least two parts certifies that every separator
character occurs in the string. -/
theorem mem_of_pySplit_two_parts {sep l : List Char} {p q : List Char} {ps : List (List Char)}
    (h : pySplit sep l = p :: q :: ps) : ∀ x ∈ sep, x ∈ l := by
  intro x hx
  have := joinSep_pySplit sep l
  rw [h] at this
  rw [← this]
  show x ∈ joinSep sep (p :: q :: ps)
  show x ∈ p ++ sep ++ joinSep sep (q :: ps)
  simp [hx]

theorem length_lt_of_pySplit_left {sep l a b : List Char} (hsep : 1 ≤ sep.length)
    (h : pySplit sep l = [a, b]) : (pyStrip a).length < l.length := by
  have hd := pySplit_two h
  have hlen : l.length = a.length + sep.length + b.length := by
    rw [hd]; simp; omega
  have := pyStrip_length_le a
  omega

theorem length_lt_of_pySplit_right {sep l a b : List Char} (hsep : 1 ≤ sep.length)
    (h : pySplit sep l = [a, b]) : (pyStrip b).length < l.length := by
  have hd := pySplit_two h
  have hlen : l.length = a.length + sep.length + b.length := by
    rw [hd]; simp; omega
  have := pyStrip_length_le b
  omega

/-- The multiplication token `" * "`. -/
def mulTok : List Char := " * ".data

/-- The division token `" / "`. -/
def divTok : List Char := " / ".data

/-- The addition token `" + "`. -/
def addTok : List Char := " + ".data

/-- The subtraction token `" - "`. -/
def subTok : List Char := " - ".data

/-- `evaluate_expression` from `constraint_utils.py`.  In source
order: the `qpu.`/`circuit.`/`computed.` property branches (each taken
only when the expression starts with the marker AND the corresponding
context object is supplied — truthiness of the Python argument);
then the four binary-operator stages `" * "`, `" / "`, `" + "`,
`" - "`, each applying only when the operator token occurs exactly once
(Python computes `parts = expression.split(tok)` after an `in` check
and requires `len(parts) == 2`, which is precisely a two-element
split); the right-hand side is tried as a float literal first, with
recursive evaluation as the fallback; finally `int`, `float`, and
plain-string literal fallback. -/
noncomputable def evaluate_expression (qpu? : Option QPUResource)
    (circuit? : Option QuantumCircuit) (engine? : Option QuBindEngine)
    (e : List Char) : Except PyErr Value :=
  if h1 : "qpu.".data.isPrefixOf e ∧ qpu?.isSome then
    get_nested_property (.qpu (qpu?.get h1.2)) (e.drop 4)
  else if h2 : "circuit.".data.isPrefixOf e ∧ circuit?.isSome then
    get_nested_property (.circuit (circuit?.get h2.2)) (e.drop 8)
  else if h3 : "computed.".data.isPrefixOf e ∧ engine?.isSome ∧ qpu?.isSome ∧ circuit?.isSome then
    computed_property (qpu?.get h3.2.2.1) (circuit?.get h3.2.2.2) (e.drop 9)
  else
    match hm : pySplit mulTok e with
    | [lm, rm] =>
      (evaluate_expression qpu? circuit? engine? (pyStrip lm)).bind fun left =>
        match pyFloat rm with
        | some v => pyMulVals left (.num (v : ℝ))
        | none =>
          (evaluate_expression qpu? circuit? engine? (pyStrip rm)).bind fun right =>
            pyMulVals left right
    | _ =>
      match hd : pySplit divTok e with
      | [ld, rd] =>
        (evaluate_expression qpu? circuit? engine? (pyStrip ld)).bind fun left =>
          match pyFloat rd with
          | some v => pyDivVals left (.num (v : ℝ))
          | none =>
            (evaluate_expression qpu? circuit? engine? (pyStrip rd)).bind fun right =>
              pyDivVals left right
      | _ =>
        match ha : pySplit addTok e with
        | [la, ra] =>
          (evaluate_expression qpu? circuit? engine? (pyStrip la)).bind fun left =>
            match pyFloat ra with
            | some v => pyAddVals left (.num (v : ℝ))
            | none =>
              (evaluate_expression qpu? circuit? engine? (pyStrip ra)).bind fun right =>
                pyAddVals left right
        | _ =>
          match hs : pySplit subTok e with
          | [ls, rs] =>
            (evaluate_expression qpu? circuit? engine? (pyStrip ls)).bind fun left =>
              match pyFloat rs with
              | some v => pySubVals left (.num (v : ℝ))
              | none =>
                (evaluate_expression qpu? circuit? engine? (pyStrip rs)).bind fun right =>
                  pySubVals left right
          | _ =>
            match pyInt e with
            | some n => .ok (.num (n : ℝ))
            | none =>
              match pyFloat e with
              | some q => .ok (.num (q : ℝ))
              | none => .ok (.str e)
  termination_by e.length
  decreasing_by
    · exact length_lt_of_pySplit_left (by decide) hm
    · exact length_lt_of_pySplit_right (by decide) hm
    · exact length_lt_of_pySplit_left (by decide) hd
    · exact length_lt_of_pySplit_right (by decide) hd
    · exact length_lt_of_pySplit_left (by decide) ha
    · exact length_lt_of_pySplit_right (by decide) ha
    · exact length_lt_of_pySplit_left (by decide) hs
    · exact length_lt_of_pySplit_right (by decide) hs

/-- `ConstraintTarget` from `qutypes.py` (`qpu`, `circuit`,
`computed`). -/
inductive ConstraintTarget where
  | qpu
  | circuit
  | computed
  deriving DecidableEq

/-- `ConstraintOperator` from `qutypes.py`. -/
inductive ConstraintOperator where
  | eq
  | ne
  | gt
  | ge
  | lt
  | le
  | isIn
  | notIn
  | containsAll
  | subset
  | superset
  deriving DecidableEq

/-- `Constraint` from `qutypes.py`.  The comparison `value` is
restricted to the modelled value universe; `custom_fn`, an arbitrary
Python callable that may raise, is modelled as a Lean function into
`Except PyErr Bool`.  The `parameters` bag is carried but never read by
evaluation, as in the source. -/
structure Constraint where
  name : List Char
  description : List Char
  target : ConstraintTarget
  property : List Char
  operator : ConstraintOperator
  value : Value
  custom_fn : Option (QPUResource → QuantumCircuit → Except PyErr Bool) := none
  parameters : List (List Char × Value) := []

/-- The operator dispatch at the end of `Constraint.evaluate`. -/
noncomputable def applyOperator (op : ConstraintOperator) (pv cv : Value) : Except PyErr Bool :=
  match op with
  | .eq => .ok (pyEq pv cv)
  | .ne => .ok (!pyEq pv cv)
  | .gt => pyGt pv cv
  | .ge => pyGe pv cv
  | .lt => pyLt pv cv
  | .le => pyLe pv cv
  | .isIn => pyIn pv cv
  | .notIn => (pyIn pv cv).map (!·)
  | .containsAll => pyContainsAll pv cv
  | .subset => pySubsetOp pv cv
  | .superset => pySupersetOp pv cv

/-- `Constraint.evaluate` from `qutypes.py`: a custom function fully
overrides the declarative logic; otherwise the property value is
resolved by target (the `computed` target requiring an engine and
supporting the five fixed names), the stored comparison value is
passed through `evaluate_expression` when it is a string containing
any of the markers `qpu.`, `circuit.`, `computed.`, and finally the
operator is applied. -/
noncomputable def Constraint.evaluate (con : Constraint) (qpu : QPUResource)
    (circuit : QuantumCircuit) (engine? : Option QuBindEngine) : Except PyErr Bool :=
  match con.custom_fn with
  | some f => f qpu circuit
  | none =>
    (match con.target with
      | .qpu => get_nested_property (.qpu qpu) con.property
      | .circuit => get_nested_property (.circuit circuit) con.property
      | .computed =>
        if engine?.isSome then computed_property qpu circuit con.property
        else .error .engineRequired).bind fun property_value =>
    (match con.value with
      | .str s =>
        if pyContains "qpu.".data s || pyContains "circuit.".data s ||
            pyContains "computed.".data s then
          evaluate_expression (some qpu) (some circuit) engine? s
        else .ok (.str s)
      | v => .ok v).bind fun comparison_value =>
    applyOperator con.operator property_value comparison_value

/-- The constraint loop of `QuBindEngine._is_feasible`: every
constraint must evaluate to `True`; a `False` result or any raised
error (caught by the `try`/`except` around the evaluation) makes the
resource infeasible immediately. -/
noncomputable def constraintsPass (engine : QuBindEngine) (qpu : QPUResource)
    (circuit : QuantumCircuit) : List Constraint → Bool
  | [] => true
  | con :: rest =>
    match con.evaluate qpu circuit (some engine) with
    | .ok true => constraintsPass engine qpu circuit rest
    | _ => false

/-- `QuBindEngine._is_feasible`: availability, capacity, then the
constraint loop. -/
noncomputable def is_feasible (engine : QuBindEngine) (qpu : QPUResource)
    (circuit : QuantumCircuit) (constraints : List Constraint) : Bool :=
  if !qpu.available then false
  else if qpu.qubits < circuit.qubits_required then false
  else constraintsPass engine qpu circuit constraints

/-- `QuBindEngine.matching_phase`: the accumulate-if-feasible loop over
the pool, which is exactly a filter in pool order. -/
noncomputable def matching_phase (engine : QuBindEngine) (circuit : QuantumCircuit)
    (constraints : List Constraint) : List QPUResource :=
  engine.qpus.filter fun qpu => is_feasible engine qpu circuit constraints

open Classical in
/-- The selection loop of `QuBindEngine.optimization_phase`: strict
`fom < best_fom` update, so the first minimum encountered is kept. -/
noncomputable def optLoop (circuit : QuantumCircuit) (weights : OptimizationWeights) :
    List QPUResource → QPUResource × ℝ → QPUResource × ℝ
  | [], best => best
  | qpu :: rest, best =>
    let fom := calculate_figure_of_merit qpu circuit weights
    if fom < best.2 then optLoop circuit weights rest (qpu, fom)
    else optLoop circuit weights rest best

/-- `QuBindEngine.optimization_phase`: raise on an empty feasible list
(`ValueError("No feasible QPUs found")`); otherwise scan for the
minimal figure of merit.  The Python loop starts from
`best_fom = float("inf")`, so its first iteration always installs the
first resource; the scan is modelled with that first element as the
initial best. -/
noncomputable def optimization_phase (feasible : List QPUResource)
    (circuit : QuantumCircuit) (weights : OptimizationWeights) : Except PyErr QPUResource :=
  match feasible with
  | [] => .error .noFeasible
  | qpu :: rest =>
    .ok (optLoop circuit weights rest (qpu, calculate_figure_of_merit qpu circuit weights)).1

/-- One entry of the ranked list built by the `/bind` endpoint
(`api.py`): resource identity, name, provider and its figure of
merit. -/
structure RankedEntry where
  qpu_id : List Char
  qpu_name : List Char
  provider : List Char
  figure_of_merit : ℝ

/-- The ranked-list entry for one feasible resource. -/
noncomputable def mkRankedEntry (circuit : QuantumCircuit) (weights : OptimizationWeights)
    (qpu : QPUResource) : RankedEntry :=
  ⟨qpu.id, qpu.name, qpu.provider, calculate_figure_of_merit qpu circuit weights⟩

open Classical in
/-- Stable insertion of an element into a key-sorted list: the new
element goes after every element whose key is less than or equal to
its own. -/
noncomputable def stableInsert {α : Type} (key : α → ℝ) (x : α) : List α → List α
  | [] => [x]
  | y :: ys => if key y ≤ key x then y :: stableInsert key x ys else x :: y :: ys

/-- Python's `list.sort(key=...)` (Timsort), which the language
guarantees to be stable, modelled by a stable insertion sort — any two
stable sorts by the same key agree on every input. -/
noncomputable def pyStableSort {α : Type} (key : α → ℝ) (l : List α) : List α :=
  l.foldl (fun acc x => stableInsert key x acc) []

/-- The ranking block of `bind_qpus` (`api.py`, ranking requested with
figures of merit present): one entry per feasible resource with its
recomputed figure of merit, sorted ascending by
`figure_of_merit`. -/
noncomputable def rank_qpus (feasible : List QPUResource) (circuit : QuantumCircuit)
    (weights : OptimizationWeights) : List RankedEntry :=
  pyStableSort (fun entry => entry.figure_of_merit)
    (feasible.map (mkRankedEntry circuit weights))

/-! ## Supporting lemmas for the claims -/

theorem constraintsPass_eq_all (engine : QuBindEngine) (qpu : QPUResource)
    (circuit : QuantumCircuit) (cs : List Constraint) :
    constraintsPass engine qpu circuit cs =
      cs.all fun con =>
        match con.evaluate qpu circuit (some engine) with
        | .ok true => true
        | _ => false := by
  induction cs with
  | nil => rfl
  | cons con rest ih =>
    rw [constraintsPass, List.all_cons]
    match h : con.evaluate qpu circuit (some engine) with
    | .ok true => simp only [ih, Bool.true_and]
    | .ok false => simp
    | .error err => simp

theorem optLoop_spec (circuit : QuantumCircuit) (weights : OptimizationWeights)
    (l : List QPUResource) : ∀ best : QPUResource × ℝ,
    (optLoop circuit weights l best = best ∧
      ∀ x ∈ l, best.2 ≤ calculate_figure_of_merit x circuit weights) ∨
    (∃ i : Fin l.length,
      optLoop circuit weights l best =
        (l.get i, calculate_figure_of_merit (l.get i) circuit weights) ∧
      calculate_figure_of_merit (l.get i) circuit weights < best.2 ∧
      (∀ x ∈ l, calculate_figure_of_merit (l.get i) circuit weights ≤
        calculate_figure_of_merit x circuit weights) ∧
      (∀ j : Fin l.length, (j : ℕ) < (i : ℕ) →
        calculate_figure_of_merit (l.get i) circuit weights <
          calculate_figure_of_merit (l.get j) circuit weights)) := by
  induction l with
  | nil =>
    intro best
    exact Or.inl ⟨rfl, by simp⟩
  | cons qpu rest ih =>
    intro best
    rw [optLoop]
    by_cases hlt : calculate_figure_of_merit qpu circuit weights < best.2
    · rw [if_pos hlt]
      rcases ih (qpu, calculate_figure_of_merit qpu circuit weights) with
        ⟨heq, hall⟩ | ⟨i, heq, hlt2, hall, hfirst⟩
      · refine Or.inr ⟨⟨0, by simp⟩, ?_, ?_, ?_, ?_⟩
        · simpa using heq
        · simpa using hlt
        · intro x hx
          rcases List.mem_cons.mp hx with rfl | hx
          · exact le_rfl
          · simpa using hall x hx
        · intro j hj
          exact absurd hj (Nat.not_lt_zero _)
      · refine Or.inr ⟨i.succ, ?_, ?_, ?_, ?_⟩
        · simpa using heq
        · calc calculate_figure_of_merit ((qpu :: rest).get i.succ) circuit weights
              = calculate_figure_of_merit (rest.get i) circuit weights := by simp
            _ < calculate_figure_of_merit qpu circuit weights := hlt2
            _ < best.2 := hlt
        · intro x hx
          rcases List.mem_cons.mp hx with rfl | hx
          · simpa using hlt2.le
          · simpa using hall x hx
        · intro j hj
          match j with
          | ⟨0, h0⟩ => simpa using hlt2
          | ⟨k + 1, hk⟩ =>
            have hk' : k < (i : ℕ) := by simpa using hj
            simpa using hfirst ⟨k, by simpa using hk⟩ hk'
    · rw [if_neg hlt]
      push_neg at hlt
      rcases ih best with ⟨heq, hall⟩ | ⟨i, heq, hlt2, hall, hfirst⟩
      · refine Or.inl ⟨heq, ?_⟩
        intro x hx
        rcases List.mem_cons.mp hx with rfl | hx
        · exact hlt
        · exact hall x hx
      · refine Or.inr ⟨i.succ, ?_, ?_, ?_, ?_⟩
        · simpa using heq
        · calc calculate_figure_of_merit ((qpu :: rest).get i.succ) circuit weights
              = calculate_figure_of_merit (rest.get i) circuit weights := by simp
            _ < best.2 := hlt2
        · intro x hx
          rcases List.mem_cons.mp hx with rfl | hx
          · exact le_trans hlt2.le hlt
          · simpa using hall x hx
        · intro j hj
          match j with
          | ⟨0, h0⟩ => exact lt_of_lt_of_le hlt2 hlt
          | ⟨k + 1, hk⟩ =>
            have hk' : k < (i : ℕ) := by simpa using hj
            simpa using hfirst ⟨k, by simpa using hk⟩ hk'

/-! ## The claims -/

/-- C1: for every resource pool, workload and constraint list, the
Matching Phase returns exactly the subsequence of the pool, in pool
order, of those resources that are available, have enough qubits, and
for which every constraint evaluates to `True` without raising; an
evaluation error (or a `False` result) excludes only that resource,
and matching continues with the rest of the pool. -/
theorem matching_phase_eq_filter (engine : QuBindEngine) (circuit : QuantumCircuit)
    (constraints : List Constraint) :
    matching_phase engine circuit constraints =
      engine.qpus.filter fun qpu =>
        qpu.available && decide (circuit.qubits_required ≤ qpu.qubits) &&
          constraints.all fun con =>
            match con.evaluate qpu circuit (some engine) with
            | .ok true => true
            | _ => false := by
  unfold matching_phase
  apply List.filter_congr
  intro qpu _
  rw [is_feasible, constraintsPass_eq_all]
  by_cases hav : qpu.available
  · by_cases hq : qpu.qubits < circuit.qubits_required
    · have : ¬circuit.qubits_required ≤ qpu.qubits := by omega
      simp [hav, hq, this]
    · have : circuit.qubits_required ≤ qpu.qubits := by omega
      simp [hav, hq, this]
  · simp [hav]

/-- C2: on a non-empty feasible list with construction-valid weights,
the Optimization Phase returns the resource of minimal figure of
merit, and on ties the one occurring first in the input list (every
earlier resource has a strictly larger figure of merit). -/
theorem optimization_phase_first_min (feasible : List QPUResource)
    (circuit : QuantumCircuit) (weights : OptimizationWeights)
    (hne : feasible ≠ [])
    (hvalid : mkOptimizationWeights weights.cost_weight weights.error_weight
      weights.workload_weight = .ok weights) :
    ∃ i : Fin feasible.length,
      optimization_phase feasible circuit weights = .ok (feasible.get i) ∧
      (∀ j : Fin feasible.length,
        calculate_figure_of_merit (feasible.get i) circuit weights ≤
          calculate_figure_of_merit (feasible.get j) circuit weights) ∧
      (∀ j : Fin feasible.length, (j : ℕ) < (i : ℕ) →
        calculate_figure_of_merit (feasible.get i) circuit weights <
          calculate_figure_of_merit (feasible.get j) circuit weights) := by
  match feasible with
  | [] => exact absurd rfl hne
  | qpu :: rest =>
    rw [optimization_phase]
    rcases optLoop_spec circuit weights rest
        (qpu, calculate_figure_of_merit qpu circuit weights) with
      ⟨heq, hall⟩ | ⟨i, heq, hlt2, hall, hfirst⟩
    · refine ⟨⟨0, by simp⟩, ?_, ?_, ?_⟩
      · rw [heq]
        rfl
      · intro j
        match j with
        | ⟨0, h0⟩ => exact le_rfl
        | ⟨k + 1, hk⟩ =>
          have hk2 : k < rest.length := by simpa using hk
          simpa using hall (rest.get ⟨k, hk2⟩) (rest.get_mem k hk2)
      · intro j hj
        exact absurd hj (Nat.not_lt_zero _)
    · refine ⟨i.succ, ?_, ?_, ?_⟩
      · rw [heq]
        rfl
      · intro j
        match j with
        | ⟨0, h0⟩ => simpa using hlt2.le
        | ⟨k + 1, hk⟩ =>
          have hk2 : k < rest.length := by simpa using hk
          simpa using hall (rest.get ⟨k, hk2⟩) (rest.get_mem k hk2)
      · intro j hj
        match j with
        | ⟨0, h0⟩ => simpa using hlt2
        | ⟨k + 1, hk⟩ =>
          have hk' : k < (i : ℕ) := by simpa using hj
          simpa using hfirst ⟨k, by simpa using hk⟩ hk'

/-- C6: the Optimization Phase on an empty feasible list raises the
no-feasible-resource `ValueError`, returning no resource; the error
propagates to the caller. -/
theorem optimization_phase_empty_raises (circuit : QuantumCircuit)
    (weights : OptimizationWeights) :
    optimization_phase [] circuit weights = .error .noFeasible := rfl

/-! ## Concrete fixtures for witnesses and counterexamples -/

/-- A concrete workload: a two-qubit circuit with one `H` and one
`CNOT` gate and one measurement per qubit. -/
def wCircuit : QuantumCircuit :=
  ⟨"c1".data, "bell".data, 2, 1000, [("H".data, 1), ("CNOT".data, 1)], 2,
   [0, 1], [(0, 1), (1, 1)]⟩

/-- A concrete available resource with a constant cost function. -/
noncomputable def wQpu : QPUResource :=
  ⟨"premium-01".data, "Premium".data, "IBM".data, 27,
   ["X".data, "H".data, "CNOT".data],
   [("X".data, 0.9995), ("H".data, 0.999), ("CNOT".data, 0.995)],
   [(0, 0.99), (1, 0.99)], 2000, 20000, 15, true, fun _ => 50⟩

/-- The default weight triple of the API. -/
noncomputable def wWeights : OptimizationWeights := ⟨0.33, 0.33, 0.34⟩

theorem mkOptimizationWeights_standard :
    mkOptimizationWeights 0.33 0.33 0.34 = .ok ⟨0.33, 0.33, 0.34⟩ := by
  unfold mkOptimizationWeights
  rw [if_pos (by norm_num), if_pos]
  have h1 : (0.33 : ℝ) + 0.33 + 0.34 = 1 := by norm_num
  rw [h1]
  simp

/-- Witness for C2: the theorem applied to a concrete singleton
pool. -/
theorem optimization_phase_first_min_witness :
    ∃ i : Fin [wQpu].length,
      optimization_phase [wQpu] wCircuit wWeights = .ok ([wQpu].get i) ∧
      (∀ j : Fin [wQpu].length,
        calculate_figure_of_merit ([wQpu].get i) wCircuit wWeights ≤
          calculate_figure_of_merit ([wQpu].get j) wCircuit wWeights) ∧
      (∀ j : Fin [wQpu].length, (j : ℕ) < (i : ℕ) →
        calculate_figure_of_merit ([wQpu].get i) wCircuit wWeights <
          calculate_figure_of_merit ([wQpu].get j) wCircuit wWeights) :=
  optimization_phase_first_min [wQpu] wCircuit wWeights (by simp)
    mkOptimizationWeights_standard

/-- C7: for weight values each in `[0, 1]`, construction succeeds
exactly when the sum passes the `math.isclose(total, 1.0,
rel_tol=1e-6)` test, stores the three weights unchanged, and any other
sum yields the invalid-weights error. -/
theorem mkOptimizationWeights_iff (c e w : ℝ)
    (hc0 : 0 ≤ c) (hc1 : c ≤ 1) (he0 : 0 ≤ e) (he1 : e ≤ 1)
    (hw0 : 0 ≤ w) (hw1 : w ≤ 1) :
    (mkOptimizationWeights c e w = .ok ⟨c, e, w⟩ ↔
      |c + e + w - 1| ≤ 1 / 1000000 * max |c + e + w| 1) ∧
    (mkOptimizationWeights c e w = .error .invalidWeights ↔
      ¬|c + e + w - 1| ≤ 1 / 1000000 * max |c + e + w| 1) := by
  unfold mkOptimizationWeights
  rw [if_pos ⟨hc0, hc1, he0, he1, hw0, hw1⟩]
  by_cases h : |c + e + w - 1| ≤ 1 / 1000000 * max |c + e + w| 1
  · rw [if_pos h]
    exact ⟨iff_of_true rfl h, iff_of_false (by simp) (not_not_intro h)⟩
  · rw [if_neg h]
    exact ⟨iff_of_false (by simp) h, iff_of_true rfl h⟩

/-- Witness for C7 at the default weight triple. -/
theorem mkOptimizationWeights_iff_witness :
    (mkOptimizationWeights 0.33 0.33 0.34 = .ok ⟨0.33, 0.33, 0.34⟩ ↔
      |(0.33 : ℝ) + 0.33 + 0.34 - 1| ≤ 1 / 1000000 * max |(0.33 : ℝ) + 0.33 + 0.34| 1) ∧
    (mkOptimizationWeights 0.33 0.33 0.34 = .error .invalidWeights ↔
      ¬|(0.33 : ℝ) + 0.33 + 0.34 - 1| ≤ 1 / 1000000 * max |(0.33 : ℝ) + 0.33 + 0.34| 1) :=
  mkOptimizationWeights_iff 0.33 0.33 0.34 (by norm_num) (by norm_num)
    (by norm_num) (by norm_num) (by norm_num) (by norm_num)

theorem normalize_cost_pos (c : ℝ) : 0 < normalize_cost c := by
  unfold normalize_cost
  have h := Real.exp_pos (-(1 / 100) * (c - 100))
  positivity

theorem normalize_cost_lt_one (c : ℝ) : normalize_cost c < 1 := by
  unfold normalize_cost
  have h := Real.exp_pos (-(1 / 100) * (c - 100))
  rw [div_lt_one (by linarith)]
  linarith

/-- A successful association-list lookup certifies membership of the
key-value pair. -/
theorem mem_of_lookup_eq_some {κ : Type} [BEq κ] [LawfulBEq κ] {tbl : List (κ × ℝ)}
    {k : κ} {f : ℝ} (h : tbl.lookup k = some f) : (k, f) ∈ tbl := by
  induction tbl with
  | nil => simp [List.lookup] at h
  | cons p rest ih =>
    rw [List.lookup] at h
    cases hbeq : k == p.1 with
    | true =>
      rw [hbeq] at h
      have hk : k = p.1 := by
        have := eq_of_beq hbeq
        exact this
      have hv : p.2 = f := by
        simpa using h
      have hkf : (k, f) = p := by
        rw [hk, ← hv]
      rw [hkf]
      exact List.mem_cons_self _ _
    | false =>
      rw [hbeq] at h
      exact List.mem_cons_of_mem _ (ih h)

/-- The fidelity fold stays in `[0, 1]` when the fidelity table does
and the accumulator does. -/
theorem foldl_pow_bounds {κ : Type} [BEq κ] [LawfulBEq κ] (tbl : List (κ × ℝ))
    (htbl : ∀ p ∈ tbl, 0 ≤ p.2 ∧ p.2 ≤ 1) (items : List (κ × ℕ)) :
    ∀ acc : ℝ, 0 ≤ acc → acc ≤ 1 →
      0 ≤ items.foldl (fun a it =>
        match tbl.lookup it.1 with
        | some f => a * f ^ it.2
        | none => a) acc ∧
      items.foldl (fun a it =>
        match tbl.lookup it.1 with
        | some f => a * f ^ it.2
        | none => a) acc ≤ 1 := by
  induction items with
  | nil => exact fun acc h0 h1 => ⟨h0, h1⟩
  | cons it rest ih =>
    intro acc h0 h1
    simp only [List.foldl_cons]
    match h : tbl.lookup it.1 with
    | none => exact ih acc h0 h1
    | some f =>
      have hf : 0 ≤ f ∧ f ≤ 1 := htbl (it.1, f) (mem_of_lookup_eq_some h)
      refine ih _ (mul_nonneg h0 (pow_nonneg hf.1 _)) ?_
      calc acc * f ^ it.2 ≤ 1 * 1 :=
            mul_le_mul h1 (pow_le_one₀ hf.1 hf.2) (pow_nonneg hf.1 _) zero_le_one
        _ = 1 := by ring

/-- Expected fidelity lies in `[0, 1]` whenever the resource's
per-gate and per-qubit fidelities do. -/
theorem calculate_fidelity_bounds (qpu : QPUResource) (circuit : QuantumCircuit)
    (hgf : ∀ p ∈ qpu.gate_fidelities, 0 ≤ p.2 ∧ p.2 ≤ 1)
    (hrf : ∀ p ∈ qpu.readout_fidelities, 0 ≤ p.2 ∧ p.2 ≤ 1) :
    0 ≤ calculate_fidelity qpu circuit ∧ calculate_fidelity qpu circuit ≤ 1 := by
  unfold calculate_fidelity
  split
  · norm_num
  · have h1 := foldl_pow_bounds qpu.gate_fidelities hgf circuit.gate_counts 1
      zero_le_one le_rfl
    have h2 := foldl_pow_bounds qpu.readout_fidelities hrf circuit.measurements 1
      zero_le_one le_rfl
    constructor
    · exact mul_nonneg h1.1 h2.1
    · calc _ ≤ (1 : ℝ) * 1 := mul_le_mul h1.2 h2.2 h2.1 zero_le_one
        _ = 1 := by ring

theorem normalize_workload_bounds (w : Nat) :
    0 ≤ normalize_workload w ∧ normalize_workload w ≤ 1 := by
  unfold normalize_workload
  constructor
  · apply le_min zero_le_one
    positivity
  · exact min_le_left _ _

/-- C3 (amended): with weights in `[0, 1]` summing to 1, per-gate and
per-qubit fidelities in `[0, 1]`, and a non-negative cost function, the
figure of merit equals
`cost_weight * normalized_cost + error_weight * (1 - fidelity) +
workload_weight * normalized_workload` and lies in the CLOSED interval
`[0, 1]` (the endpoints are attainable, so the claim's open interval
`(0, 1)` fails; see the counterexample). -/
theorem figure_of_merit_formula_bounds (qpu : QPUResource) (circuit : QuantumCircuit)
    (weights : OptimizationWeights)
    (hc0 : 0 ≤ weights.cost_weight) (hc1 : weights.cost_weight ≤ 1)
    (he0 : 0 ≤ weights.error_weight) (he1 : weights.error_weight ≤ 1)
    (hw0 : 0 ≤ weights.workload_weight) (hw1 : weights.workload_weight ≤ 1)
    (hsum : weights.cost_weight + weights.error_weight + weights.workload_weight = 1)
    (hgf : ∀ p ∈ qpu.gate_fidelities, 0 ≤ p.2 ∧ p.2 ≤ 1)
    (hrf : ∀ p ∈ qpu.readout_fidelities, 0 ≤ p.2 ∧ p.2 ≤ 1)
    (hcost : 0 ≤ qpu.cost circuit) :
    calculate_figure_of_merit qpu circuit weights =
      weights.cost_weight * normalize_cost (qpu.cost circuit)
        + weights.error_weight * (1 - calculate_fidelity qpu circuit)
        + weights.workload_weight * normalize_workload qpu.workload ∧
    0 ≤ calculate_figure_of_merit qpu circuit weights ∧
    calculate_figure_of_merit qpu circuit weights ≤ 1 := by
  have hnc0 := normalize_cost_pos (qpu.cost circuit)
  have hnc1 := normalize_cost_lt_one (qpu.cost circuit)
  have hfid := calculate_fidelity_bounds qpu circuit hgf hrf
  have hnw := normalize_workload_bounds qpu.workload
  refine ⟨rfl, ?_, ?_⟩
  · unfold calculate_figure_of_merit calculate_cost
    have t1 : 0 ≤ weights.cost_weight * normalize_cost (qpu.cost circuit) :=
      mul_nonneg hc0 hnc0.le
    have t2 : 0 ≤ weights.error_weight * (1 - calculate_fidelity qpu circuit) :=
      mul_nonneg he0 (by linarith [hfid.2])
    have t3 : 0 ≤ weights.workload_weight * normalize_workload qpu.workload :=
      mul_nonneg hw0 hnw.1
    linarith
  · unfold calculate_figure_of_merit calculate_cost
    have t1 : weights.cost_weight * normalize_cost (qpu.cost circuit) ≤
        weights.cost_weight :=
      calc weights.cost_weight * normalize_cost (qpu.cost circuit)
          ≤ weights.cost_weight * 1 :=
            mul_le_mul_of_nonneg_left hnc1.le hc0
        _ = weights.cost_weight := mul_one _
    have t2 : weights.error_weight * (1 - calculate_fidelity qpu circuit) ≤
        weights.error_weight :=
      calc weights.error_weight * (1 - calculate_fidelity qpu circuit)
          ≤ weights.error_weight * 1 :=
            mul_le_mul_of_nonneg_left (by linarith [hfid.1]) he0
        _ = weights.error_weight := mul_one _
    have t3 : weights.workload_weight * normalize_workload qpu.workload ≤
        weights.workload_weight :=
      calc weights.workload_weight * normalize_workload qpu.workload
          ≤ weights.workload_weight * 1 :=
            mul_le_mul_of_nonneg_left hnw.2 hw0
        _ = weights.workload_weight := mul_one _
    linarith

/-- Witness for C3 at a concrete resource, workload and weight
triple. -/
theorem figure_of_merit_formula_bounds_witness :
    calculate_figure_of_merit wQpu wCircuit wWeights =
      wWeights.cost_weight * normalize_cost (wQpu.cost wCircuit)
        + wWeights.error_weight * (1 - calculate_fidelity wQpu wCircuit)
        + wWeights.workload_weight * normalize_workload wQpu.workload ∧
    0 ≤ calculate_figure_of_merit wQpu wCircuit wWeights ∧
    calculate_figure_of_merit wQpu wCircuit wWeights ≤ 1 :=
  figure_of_merit_formula_bounds wQpu wCircuit wWeights
    (by norm_num [wWeights]) (by norm_num [wWeights]) (by norm_num [wWeights])
    (by norm_num [wWeights]) (by norm_num [wWeights]) (by norm_num [wWeights])
    (by norm_num [wWeights])
    (by intro p hp; simp [wQpu] at hp; rcases hp with h | h | h <;> rw [h] <;> norm_num)
    (by intro p hp; simp [wQpu] at hp; rcases hp with h | h <;> rw [h] <;> norm_num)
    (by norm_num [wQpu])

/-- The weight triple `(0, 1, 0)` used by the C3 counterexample: each
weight is in `[0, 1]` and the sum is exactly 1. -/
noncomputable def cx3Weights : OptimizationWeights := ⟨0, 1, 0⟩

/-- A resource with empty fidelity tables used by the C3
counterexample. -/
noncomputable def cx3Qpu : QPUResource :=
  ⟨"q".data, "q".data, "IBM".data, 5, [], [], [], 1000, 10000, 0, true, fun _ => 50⟩

/-- A workload with no gates used by the C3 counterexample. -/
def cx3Circuit : QuantumCircuit :=
  ⟨"c".data, "c".data, 2, 1000, [], 0, [], []⟩

/-- Counterexample to C3 as stated: with the valid weight triple
`(0, 1, 0)` and a workload with no gates (fidelity 1), the figure of
merit is exactly 0, outside the claimed open interval `(0, 1)`. -/
theorem figure_of_merit_open_interval_counterexample :
    (0 : ℝ) ≤ cx3Weights.cost_weight ∧ cx3Weights.cost_weight ≤ 1 ∧
    (0 : ℝ) ≤ cx3Weights.error_weight ∧ cx3Weights.error_weight ≤ 1 ∧
    (0 : ℝ) ≤ cx3Weights.workload_weight ∧ cx3Weights.workload_weight ≤ 1 ∧
    cx3Weights.cost_weight + cx3Weights.error_weight + cx3Weights.workload_weight = 1 ∧
    (0 : ℝ) ≤ cx3Qpu.cost cx3Circuit ∧
    calculate_figure_of_merit cx3Qpu cx3Circuit cx3Weights = 0 ∧
    ¬(0 < calculate_figure_of_merit cx3Qpu cx3Circuit cx3Weights ∧
      calculate_figure_of_merit cx3Qpu cx3Circuit cx3Weights < 1) := by
  have hfom : calculate_figure_of_merit cx3Qpu cx3Circuit cx3Weights = 0 := by
    unfold calculate_figure_of_merit calculate_fidelity normalize_workload
      calculate_cost
    norm_num [cx3Weights, cx3Qpu, cx3Circuit]
  refine ⟨?_, ?_, ?_, ?_, ?_, ?_, ?_, ?_, hfom, ?_⟩
  · norm_num [cx3Weights]
  · norm_num [cx3Weights]
  · norm_num [cx3Weights]
  · norm_num [cx3Weights]
  · norm_num [cx3Weights]
  · norm_num [cx3Weights]
  · norm_num [cx3Weights]
  · norm_num [cx3Qpu]
  · rw [hfom]
    norm_num

/-- The fidelity fold as a product over the table-resolved entries. -/
theorem foldl_pow_eq_prod {κ : Type} [BEq κ] (tbl : List (κ × ℝ))
    (items : List (κ × ℕ)) : ∀ acc : ℝ,
    items.foldl (fun a it =>
      match tbl.lookup it.1 with
      | some f => a * f ^ it.2
      | none => a) acc =
    acc * (items.filterMap fun it => (tbl.lookup it.1).map fun f => f ^ it.2).prod := by
  induction items with
  | nil => intro acc; simp
  | cons it rest ih =>
    intro acc
    simp only [List.foldl_cons]
    match h : tbl.lookup it.1 with
    | none =>
      simp only [h]
      have hfm : (it :: rest).filterMap
            (fun it' => (tbl.lookup it'.1).map fun f => f ^ it'.2) =
          rest.filterMap (fun it' => (tbl.lookup it'.1).map fun f => f ^ it'.2) := by
        rw [List.filterMap_cons]
        simp [h]
      rw [hfm]
      exact ih acc
    | some f =>
      simp only [h]
      have hfm : (it :: rest).filterMap
            (fun it' => (tbl.lookup it'.1).map fun f => f ^ it'.2) =
          (f ^ it.2) :: rest.filterMap
            (fun it' => (tbl.lookup it'.1).map fun f => f ^ it'.2) := by
        rw [List.filterMap_cons]
        simp [h]
      rw [hfm, List.prod_cons, ih (acc * f ^ it.2)]
      ring

/-- C4 (amended): when the workload's gate-count mapping is non-empty,
the fidelity is the product of `gate_fidelity[kind] ^ count` over gate
kinds present in the resource's table times the product of
`readout_fidelity[qubit] ^ measurements` over measured qubits present
in the readout table (absent kinds and qubits skipped); when the
gate-count mapping is empty the result is 1.0 regardless of the
measurements (the early return ignores readout fidelities there, which
refutes the unconditional product in the claim; see the
counterexample). -/
theorem calculate_fidelity_eq_products (qpu : QPUResource) (circuit : QuantumCircuit) :
    (circuit.gate_counts = [] → calculate_fidelity qpu circuit = 1) ∧
    (circuit.gate_counts ≠ [] →
      calculate_fidelity qpu circuit =
        (circuit.gate_counts.filterMap fun gc =>
          (qpu.gate_fidelities.lookup gc.1).map fun f => f ^ gc.2).prod *
        (circuit.measurements.filterMap fun m =>
          (qpu.readout_fidelities.lookup m.1).map fun f => f ^ m.2).prod) := by
  constructor
  · intro h
    unfold calculate_fidelity
    rw [if_pos (by simp [h])]
  · intro h
    unfold calculate_fidelity
    rw [if_neg (by simpa using h)]
    rw [foldl_pow_eq_prod, foldl_pow_eq_prod]
    ring

/-- Witness for C4 on a concrete workload with gates and
measurements. -/
theorem calculate_fidelity_eq_products_witness :
    (wCircuit.gate_counts = [] → calculate_fidelity wQpu wCircuit = 1) ∧
    (wCircuit.gate_counts ≠ [] →
      calculate_fidelity wQpu wCircuit =
        (wCircuit.gate_counts.filterMap fun gc =>
          (wQpu.gate_fidelities.lookup gc.1).map fun f => f ^ gc.2).prod *
        (wCircuit.measurements.filterMap fun m =>
          (wQpu.readout_fidelities.lookup m.1).map fun f => f ^ m.2).prod) :=
  calculate_fidelity_eq_products wQpu wCircuit

/-- A resource whose readout table gives qubit 0 fidelity one half,
used by the C4 counterexample. -/
noncomputable def cx4Qpu : QPUResource :=
  ⟨"q".data, "q".data, "IBM".data, 5, [], [], [(0, 0.5)], 1000, 10000, 0, true,
   fun _ => 50⟩

/-- A workload with no gates but one measurement, used by the C4
counterexample. -/
def cx4Circuit : QuantumCircuit :=
  ⟨"c".data, "c".data, 2, 1000, [], 0, [0], [(0, 1)]⟩

/-- Counterexample to C4 as stated: with an empty gate-count mapping
but one measurement on a qubit with readout fidelity one half, the code
returns 1.0 while the claimed product formula gives one half. -/
theorem calculate_fidelity_products_counterexample :
    calculate_fidelity cx4Qpu cx4Circuit = 1 ∧
    (cx4Circuit.gate_counts.filterMap fun gc =>
      (cx4Qpu.gate_fidelities.lookup gc.1).map fun f => f ^ gc.2).prod *
    (cx4Circuit.measurements.filterMap fun m =>
      (cx4Qpu.readout_fidelities.lookup m.1).map fun f => f ^ m.2).prod = (0.5 : ℝ) ∧
    (1 : ℝ) ≠ (0.5 : ℝ) := by
  refine ⟨?_, ?_, by norm_num⟩
  · unfold calculate_fidelity
    rw [if_pos (by simp [cx4Circuit])]
  · have hlk : cx4Qpu.readout_fidelities.lookup (0 : Int) = some 0.5 := by
      simp [cx4Qpu, List.lookup]
    have hgc : cx4Circuit.gate_counts = [] := rfl
    have hms : cx4Circuit.measurements = [(0, 1)] := rfl
    rw [hgc, hms]
    rw [List.filterMap_nil, List.prod_nil, one_mul]
    have hfm : ([((0 : Int), (1 : Nat))].filterMap
          (fun m => (cx4Qpu.readout_fidelities.lookup m.1).map fun f => f ^ m.2)) =
        [(0.5 : ℝ) ^ (1 : Nat)] := by
      rw [List.filterMap_cons]
      simp [hlk]
    rw [hfm, List.prod_cons, List.prod_nil]
    norm_num

theorem stableInsert_perm {α : Type} (key : α → ℝ) (x : α) (l : List α) :
    (stableInsert key x l).Perm (x :: l) := by
  induction l with
  | nil => exact List.Perm.refl _
  | cons y ys ih =>
    rw [stableInsert]
    split
    · exact (ih.cons y).trans (List.Perm.swap x y ys)
    · exact List.Perm.refl _

theorem foldl_stableInsert_perm {α : Type} (key : α → ℝ) (l : List α) :
    ∀ acc : List α,
      (l.foldl (fun acc x => stableInsert key x acc) acc).Perm (l ++ acc) := by
  induction l with
  | nil => intro acc; simp
  | cons x xs ih =>
    intro acc
    rw [List.foldl_cons]
    exact (ih _).trans
      (((stableInsert_perm key x acc).append_left xs).trans List.perm_middle)

theorem stableInsert_sorted {α : Type} (key : α → ℝ) (x : α) (l : List α)
    (hl : List.Sorted (fun a b => key a ≤ key b) l) :
    List.Sorted (fun a b => key a ≤ key b) (stableInsert key x l) := by
  induction l with
  | nil => simp [stableInsert]
  | cons y ys ih =>
    rw [List.sorted_cons] at hl
    rw [stableInsert]
    split
    next hle =>
      rw [List.sorted_cons]
      refine ⟨?_, ih hl.2⟩
      intro b hb
      have hb2 := (stableInsert_perm key x ys).mem_iff.mp hb
      rcases List.mem_cons.mp hb2 with rfl | hb3
      · exact hle
      · exact hl.1 b hb3
    next hgt =>
      push_neg at hgt
      rw [List.sorted_cons]
      refine ⟨?_, List.sorted_cons.mpr hl⟩
      intro b hb
      rcases List.mem_cons.mp hb with rfl | hb2
      · exact hgt.le
      · exact le_trans hgt.le (hl.1 b hb2)

theorem foldl_stableInsert_sorted {α : Type} (key : α → ℝ) (l : List α) :
    ∀ acc : List α, List.Sorted (fun a b => key a ≤ key b) acc →
      List.Sorted (fun a b => key a ≤ key b)
        (l.foldl (fun acc x => stableInsert key x acc) acc) := by
  induction l with
  | nil => exact fun acc h => h
  | cons x xs ih =>
    intro acc hacc
    rw [List.foldl_cons]
    exact ih _ (stableInsert_sorted key x acc hacc)

theorem filter_stableInsert {α : Type} (key : α → ℝ) (k : ℝ) (x : α) (l : List α)
    (hl : List.Sorted (fun a b => key a ≤ key b) l) :
    (stableInsert key x l).filter (fun a => decide (key a = k)) =
      if key x = k then
        l.filter (fun a => decide (key a = k)) ++ [x]
      else
        l.filter (fun a => decide (key a = k)) := by
  induction l with
  | nil =>
    rw [stableInsert]
    by_cases hx : key x = k
    · simp [hx]
    · simp [hx]
  | cons y ys ih =>
    rw [List.sorted_cons] at hl
    rw [stableInsert]
    split
    next hle =>
      rw [List.filter_cons, ih hl.2]
      by_cases hx : key x = k <;> by_cases hy : key y = k <;>
        simp [List.filter_cons, hx, hy]
    next hgt =>
      push_neg at hgt
      by_cases hx : key x = k
      · have hys : (y :: ys).filter (fun a => decide (key a = k)) = [] := by
          rw [List.filter_eq_nil_iff]
          intro b hb
          rcases List.mem_cons.mp hb with rfl | hb2
          · simp only [decide_eq_true_eq]
            rw [← hx]
            exact ne_of_gt hgt
          · simp only [decide_eq_true_eq]
            rw [← hx]
            exact ne_of_gt (lt_of_lt_of_le hgt (hl.1 b hb2))
        rw [if_pos hx, hys, List.filter_cons, if_pos (by simpa using hx), hys]
        simp
      · rw [if_neg hx, List.filter_cons, if_neg (by simpa using hx)]

theorem filter_foldl_stableInsert {α : Type} (key : α → ℝ) (k : ℝ) (l : List α) :
    ∀ acc : List α, List.Sorted (fun a b => key a ≤ key b) acc →
      (l.foldl (fun acc x => stableInsert key x acc) acc).filter
          (fun a => decide (key a = k)) =
        acc.filter (fun a => decide (key a = k)) ++
          l.filter (fun a => decide (key a = k)) := by
  induction l with
  | nil => intro acc _; simp
  | cons x xs ih =>
    intro acc hacc
    rw [List.foldl_cons, ih _ (stableInsert_sorted key x acc hacc),
      filter_stableInsert key k x acc hacc, List.filter_cons]
    by_cases hx : key x = k
    · rw [if_pos hx, if_pos (by simpa using hx)]
      simp
    · rw [if_neg hx, if_neg (by simpa using hx)]

theorem mem_of_pyContains {sep l : List Char} (h : pyContains sep l = true) :
    ∀ x ∈ sep, x ∈ l := by
  induction l with
  | nil =>
    rw [pyContains] at h
    intro x hx
    rw [List.isEmpty_iff] at h
    rw [h] at hx
    simp at hx
  | cons c rest ih =>
    rw [pyContains, Bool.or_eq_true] at h
    intro x hx
    rcases h with h | h
    · exact (List.isPrefixOf_iff_prefix.mp h).subset hx
    · exact List.mem_cons_of_mem c (ih h x hx)

/-- When the multiplication token does not occur, the split is
trivial. -/
theorem pySplit_mulTok_single {y : List Char} (hy : '*' ∉ y) :
    pySplit mulTok y = [y] := by
  apply pySplit_of_not_contains (by decide)
  cases hc : pyContains mulTok y with
  | false => rfl
  | true => exact absurd (mem_of_pyContains hc '*' (by decide)) hy

/-- Splitting on `" * "` a string assembled around a single
multiplication token whose sides contain no star yields exactly the
two sides: the leftmost-match scan can only fire at the token. -/
theorem pySplit_mulTok_append {x y : List Char} (hx : '*' ∉ x) (hy : '*' ∉ y) :
    pySplit mulTok (x ++ mulTok ++ y) = [x, y] := by
  induction x with
  | nil =>
    show pySplit mulTok (' ' :: '*' :: ' ' :: y) = [[], y]
    rw [pySplit]
    rw [if_pos ⟨by decide, by simp [mulTok, List.isPrefixOf]⟩]
    show [] :: pySplit mulTok y = [[], y]
    rw [pySplit_mulTok_single hy]
  | cons d x' ih =>
    have hx' : '*' ∉ x' := fun hmem => hx (List.mem_cons_of_mem d hmem)
    show pySplit mulTok (d :: (x' ++ mulTok ++ y)) = [d :: x', y]
    rw [pySplit]
    have hnotpre : mulTok.isPrefixOf (d :: (x' ++ mulTok ++ y)) = false := by
      cases hp : mulTok.isPrefixOf (d :: (x' ++ mulTok ++ y)) with
      | false => rfl
      | true =>
        exfalso
        obtain ⟨t, ht⟩ := List.isPrefixOf_iff_prefix.mp hp
        have ht2 : ' ' = d ∧ '*' :: ' ' :: t = x' ++ mulTok ++ y := by
          have := ht
          rw [show mulTok = ' ' :: '*' :: ' ' :: [] from rfl] at this
          simpa using this
        cases x' with
        | nil =>
          have : ('*' : Char) = ' ' := by
            have h2 := ht2.2
            rw [show ([] : List Char) ++ mulTok ++ y = ' ' :: '*' :: ' ' :: y
              from rfl] at h2
            exact (List.cons.injEq _ _ _ _).mp h2 |>.1
          exact absurd this (by decide)
        | cons p x'' =>
          have hp2 : ('*' : Char) = p := by
            have h2 := ht2.2
            rw [List.cons_append, List.cons_append] at h2
            exact (List.cons.injEq _ _ _ _).mp h2 |>.1
          exact hx' (by rw [hp2]; exact List.mem_cons_self p x'')
    rw [if_neg (by
      simp only [ne_eq, not_and]
      intro _ hpre
      rw [hnotpre] at hpre
      exact Bool.noConfusion hpre)]
    rw [ih hx']

/-- The `evaluate_expression` property branches are all skipped and no
operator stage applies with exactly one split: the expression falls
through to the literal stage (`int`, then `float`, then the unchanged
string). -/
theorem evaluate_expression_literal (qpu? : Option QPUResource)
    (circuit? : Option QuantumCircuit) (engine? : Option QuBindEngine) (e : List Char)
    (h1 : ¬("qpu.".data.isPrefixOf e ∧ qpu?.isSome))
    (h2 : ¬("circuit.".data.isPrefixOf e ∧ circuit?.isSome))
    (h3 : ¬("computed.".data.isPrefixOf e ∧ engine?.isSome ∧ qpu?.isSome ∧
      circuit?.isSome))
    (hm : ∀ l r : List Char, pySplit mulTok e ≠ [l, r])
    (hd : ∀ l r : List Char, pySplit divTok e ≠ [l, r])
    (ha : ∀ l r : List Char, pySplit addTok e ≠ [l, r])
    (hs : ∀ l r : List Char, pySplit subTok e ≠ [l, r]) :
    evaluate_expression qpu? circuit? engine? e =
      match pyInt e with
      | some n => .ok (.num (n : ℝ))
      | none =>
        match pyFloat e with
        | some q => .ok (.num (q : ℝ))
        | none => .ok (.str e) := by
  rw [evaluate_expression]
  rw [dif_neg h1, dif_neg h2, dif_neg h3]
  split
  next lm rm heq => exact absurd heq (hm lm rm)
  next =>
    split
    next ld rd heq => exact absurd heq (hd ld rd)
    next =>
      split
      next la ra heq => exact absurd heq (ha la ra)
      next =>
        split
        next ls rs heq => exact absurd heq (hs ls rs)
        next => rfl

/-- The multiplication stage of `evaluate_expression`: with the
property branches skipped and the `" * "` split yielding exactly two
parts, the result is the recursive evaluation of the stripped left
part combined by multiplication with the float-parsed (or recursively
evaluated) stripped right part. -/
theorem evaluate_expression_mul_step (qpu? : Option QPUResource)
    (circuit? : Option QuantumCircuit) (engine? : Option QuBindEngine)
    (e l r : List Char)
    (h1 : ¬("qpu.".data.isPrefixOf e ∧ qpu?.isSome))
    (h2 : ¬("circuit.".data.isPrefixOf e ∧ circuit?.isSome))
    (h3 : ¬("computed.".data.isPrefixOf e ∧ engine?.isSome ∧ qpu?.isSome ∧
      circuit?.isSome))
    (hm : pySplit mulTok e = [l, r]) :
    evaluate_expression qpu? circuit? engine? e =
      (evaluate_expression qpu? circuit? engine? (pyStrip l)).bind fun left =>
        match pyFloat r with
        | some v => pyMulVals left (.num (v : ℝ))
        | none =>
          (evaluate_expression qpu? circuit? engine? (pyStrip r)).bind fun right =>
            pyMulVals left right := by
  rw [evaluate_expression]
  rw [dif_neg h1, dif_neg h2, dif_neg h3]
  split
  next lm rm heq =>
    have h := hm.symm.trans heq
    injection h with hl hrest
    injection hrest with hr
    subst hl
    subst hr
    rfl
  next hne => exact absurd hm (hne l r)

/-- The addition stage of `evaluate_expression`: reached when the
property branches are skipped and neither `" * "` nor `" / "` splits
into exactly two parts, with the `" + "` split yielding exactly two
parts. -/
theorem evaluate_expression_add_step (qpu? : Option QPUResource)
    (circuit? : Option QuantumCircuit) (engine? : Option QuBindEngine)
    (e l r : List Char)
    (h1 : ¬("qpu.".data.isPrefixOf e ∧ qpu?.isSome))
    (h2 : ¬("circuit.".data.isPrefixOf e ∧ circuit?.isSome))
    (h3 : ¬("computed.".data.isPrefixOf e ∧ engine?.isSome ∧ qpu?.isSome ∧
      circuit?.isSome))
    (hm : ∀ l' r' : List Char, pySplit mulTok e ≠ [l', r'])
    (hd : ∀ l' r' : List Char, pySplit divTok e ≠ [l', r'])
    (ha : pySplit addTok e = [l, r]) :
    evaluate_expression qpu? circuit? engine? e =
      (evaluate_expression qpu? circuit? engine? (pyStrip l)).bind fun left =>
        match pyFloat r with
        | some v => pyAddVals left (.num (v : ℝ))
        | none =>
          (evaluate_expression qpu? circuit? engine? (pyStrip r)).bind fun right =>
            pyAddVals left right := by
  rw [evaluate_expression]
  rw [dif_neg h1, dif_neg h2, dif_neg h3]
  split
  next lm rm heq => exact absurd heq (hm lm rm)
  next =>
    split
    next ld rd heq => exact absurd heq (hd ld rd)
    next =>
      split
      next la ra heq =>
        have h := ha.symm.trans heq
        injection h with hl hrest
        injection hrest with hr
        subst hl
        subst hr
        rfl
      next hne => exact absurd ha (hne l r)

/-- The characters that can appear in a successfully parsed Python
numeric literal. -/
def numLiteralChar (c : Char) : Bool :=
  c.isDigit || c = '+' || c = '-' || c = '.' || c = 'e' || c = 'E'

theorem parseUnsignedDigits_of_bad {l : List Char} {c : Char} (hmem : c ∈ l)
    (hbad : c.isDigit = false) : parseUnsignedDigits l = none := by
  unfold parseUnsignedDigits
  rw [if_pos]
  have hall : l.all Char.isDigit = false := by
    rw [Bool.eq_false_iff]
    intro hall
    rw [List.all_eq_true] at hall
    rw [hall c hmem] at hbad
    exact Bool.noConfusion hbad
  rw [hall]
  simp

theorem parseSignedDigits_of_bad {l : List Char} {c : Char} (hmem : c ∈ l)
    (hbad : numLiteralChar c = false) : parseSignedDigits l = none := by
  have hdig : c.isDigit = false := by
    unfold numLiteralChar at hbad
    simp only [Bool.or_eq_false_iff] at hbad
    exact hbad.1.1.1.1.1
  have hplus : c ≠ '+' := by
    intro h
    rw [h] at hbad
    simp [numLiteralChar] at hbad
  have hminus : c ≠ '-' := by
    intro h
    rw [h] at hbad
    simp [numLiteralChar] at hbad
  rw [parseSignedDigits.eq_def]
  split
  next rest =>
    have : c ∈ rest := by
      rcases List.mem_cons.mp hmem with h | h
      · exact absurd h hplus
      · exact h
    rw [parseUnsignedDigits_of_bad this hdig]
    rfl
  next rest =>
    have : c ∈ rest := by
      rcases List.mem_cons.mp hmem with h | h
      · exact absurd h hminus
      · exact h
    rw [parseUnsignedDigits_of_bad this hdig]
    rfl
  next =>
    rw [parseUnsignedDigits_of_bad hmem hdig]
    rfl

theorem mem_dropWhile_of_bad {p : Char → Bool} {c : Char} (hc : p c = false) :
    ∀ {l : List Char}, c ∈ l → c ∈ l.dropWhile p := by
  intro l
  induction l with
  | nil => intro h; exact absurd h (List.not_mem_nil c)
  | cons x t ih =>
    intro hmem
    rw [List.dropWhile_cons]
    by_cases hx : p x = true
    · rw [if_pos hx]
      rcases List.mem_cons.mp hmem with h | h
      · rw [h] at hc
        rw [hc] at hx
        exact Bool.noConfusion hx
      · exact ih h
    · rw [if_neg hx]
      exact hmem

theorem parseMantissaExp_of_bad {l : List Char} {c : Char} (hmem : c ∈ l)
    (hbad : numLiteralChar c = false) : parseMantissaExp l = none := by
  have hdig : c.isDigit = false := by
    unfold numLiteralChar at hbad
    simp only [Bool.or_eq_false_iff] at hbad
    exact hbad.1.1.1.1.1
  have hdot : c ≠ '.' := by
    intro h
    rw [h] at hbad
    simp [numLiteralChar] at hbad
  have hlow : c ≠ 'e' := by
    intro h
    rw [h] at hbad
    simp [numLiteralChar] at hbad
  have hupp : c ≠ 'E' := by
    intro h
    rw [h] at hbad
    simp [numLiteralChar] at hbad
  have hrest1 : c ∈ (spanDigits l).2 := mem_dropWhile_of_bad hdig hmem
  rw [parseMantissaExp]
  split
  next h0 =>
    rw [h0] at hrest1
    exact absurd hrest1 (List.not_mem_nil c)
  next rest2 h0 =>
    have hrest2 : c ∈ rest2 := by
      rw [h0] at hrest1
      rcases List.mem_cons.mp hrest1 with h | h
      · exact absurd h hdot
      · exact h
    have hrest3 : c ∈ (spanDigits rest2).2 := mem_dropWhile_of_bad hdig hrest2
    by_cases hip : ((spanDigits l).1.isEmpty && (spanDigits rest2).1.isEmpty) = true
    · rw [if_pos hip]
    · rw [if_neg hip]
      split
      next h4 =>
        rw [h4] at hrest3
        exact absurd hrest3 (List.not_mem_nil c)
      next rest4 h4 =>
        have : c ∈ rest4 := by
          rw [h4] at hrest3
          rcases List.mem_cons.mp hrest3 with h | h
          · exact absurd h hlow
          · exact h
        rw [parseSignedDigits_of_bad this hbad]
        rfl
      next rest4 h4 =>
        have : c ∈ rest4 := by
          rw [h4] at hrest3
          rcases List.mem_cons.mp hrest3 with h | h
          · exact absurd h hupp
          · exact h
        rw [parseSignedDigits_of_bad this hbad]
        rfl
      next => rfl
  next rest4 h0 =>
    have : c ∈ rest4 := by
      rw [h0] at hrest1
      rcases List.mem_cons.mp hrest1 with h | h
      · exact absurd h hlow
      · exact h
    rw [parseSignedDigits_of_bad this hbad]
    by_cases hip : (spanDigits l).1.isEmpty = true
    · rw [if_pos hip]
    · rw [if_neg hip]
      rfl
  next rest4 h0 =>
    have : c ∈ rest4 := by
      rw [h0] at hrest1
      rcases List.mem_cons.mp hrest1 with h | h
      · exact absurd h hupp
      · exact h
    rw [parseSignedDigits_of_bad this hbad]
    by_cases hip : (spanDigits l).1.isEmpty = true
    · rw [if_pos hip]
    · rw [if_neg hip]
      rfl
  next => rfl

theorem pyFloatCore_of_bad {l : List Char} {c : Char} (hmem : c ∈ l)
    (hbad : numLiteralChar c = false) : pyFloatCore l = none := by
  have hplus : c ≠ '+' := by
    intro h
    rw [h] at hbad
    simp [numLiteralChar] at hbad
  have hminus : c ≠ '-' := by
    intro h
    rw [h] at hbad
    simp [numLiteralChar] at hbad
  rw [pyFloatCore.eq_def]
  split
  next rest =>
    have : c ∈ rest := by
      rcases List.mem_cons.mp hmem with h | h
      · exact absurd h hplus
      · exact h
    exact parseMantissaExp_of_bad this hbad
  next rest =>
    have : c ∈ rest := by
      rcases List.mem_cons.mp hmem with h | h
      · exact absurd h hminus
      · exact h
    rw [parseMantissaExp_of_bad this hbad]
    rfl
  next => exact parseMantissaExp_of_bad hmem hbad

theorem pyIntCore_of_bad {l : List Char} {c : Char} (hmem : c ∈ l)
    (hbad : numLiteralChar c = false) : pyIntCore l = none := by
  have hdig : c.isDigit = false := by
    unfold numLiteralChar at hbad
    simp only [Bool.or_eq_false_iff] at hbad
    exact hbad.1.1.1.1.1
  have hplus : c ≠ '+' := by
    intro h
    rw [h] at hbad
    simp [numLiteralChar] at hbad
  have hminus : c ≠ '-' := by
    intro h
    rw [h] at hbad
    simp [numLiteralChar] at hbad
  rw [pyIntCore.eq_def]
  split
  next rest =>
    have : c ∈ rest := by
      rcases List.mem_cons.mp hmem with h | h
      · exact absurd h hplus
      · exact h
    rw [parseUnsignedDigits_of_bad this hdig]
    rfl
  next rest =>
    have : c ∈ rest := by
      rcases List.mem_cons.mp hmem with h | h
      · exact absurd h hminus
      · exact h
    rw [parseUnsignedDigits_of_bad this hdig]
    rfl
  next =>
    rw [parseUnsignedDigits_of_bad hmem hdig]
    rfl

/-- A character not stripped by `strip` survives it. -/
theorem mem_pyStrip_of_bad {l : List Char} {c : Char} (hmem : c ∈ l)
    (hsp : isPySpace c = false) : c ∈ pyStrip l := by
  unfold pyStrip
  rw [List.mem_reverse]
  apply mem_dropWhile_of_bad hsp
  rw [List.mem_reverse]
  exact mem_dropWhile_of_bad hsp hmem

theorem pyInt_of_bad {l : List Char} {c : Char} (hmem : c ∈ l)
    (hbad : numLiteralChar c = false) (hsp : isPySpace c = false) :
    pyInt l = none :=
  pyIntCore_of_bad (mem_pyStrip_of_bad hmem hsp) hbad

theorem pyFloat_of_bad {l : List Char} {c : Char} (hmem : c ∈ l)
    (hbad : numLiteralChar c = false) (hsp : isPySpace c = false) :
    pyFloat l = none :=
  pyFloatCore_of_bad (mem_pyStrip_of_bad hmem hsp) hbad

/-- C9: an expression beginning with the `computed.` marker evaluated
with the engine (or the resource or the circuit) absent does NOT raise
a missing-engine error: the computed branch is silently skipped, and —
when no operator token occurs and the tail is not numeric — the whole
expression string is returned unchanged as a string value. -/
theorem evaluate_expression_computed_no_engine (qpu? : Option QPUResource)
    (circuit? : Option QuantumCircuit) (engine? : Option QuBindEngine)
    (name : List Char)
    (habsent : engine? = none ∨ qpu? = none ∨ circuit? = none)
    (hm : pyContains mulTok ("computed.".data ++ name) = false)
    (hd : pyContains divTok ("computed.".data ++ name) = false)
    (ha : pyContains addTok ("computed.".data ++ name) = false)
    (hs : pyContains subTok ("computed.".data ++ name) = false) :
    evaluate_expression qpu? circuit? engine? ("computed.".data ++ name) =
      .ok (.str ("computed.".data ++ name)) := by
  have hq : "qpu.".data.isPrefixOf ("computed.".data ++ name) = false := rfl
  have hc : "circuit.".data.isPrefixOf ("computed.".data ++ name) = false := rfl
  have hmS : ∀ l r : List Char,
      pySplit mulTok ("computed.".data ++ name) ≠ [l, r] := by
    intro l r hEq
    rw [pySplit_of_not_contains (by decide) hm] at hEq
    injection hEq with _ h2
    injection h2
  have hdS : ∀ l r : List Char,
      pySplit divTok ("computed.".data ++ name) ≠ [l, r] := by
    intro l r hEq
    rw [pySplit_of_not_contains (by decide) hd] at hEq
    injection hEq with _ h2
    injection h2
  have haS : ∀ l r : List Char,
      pySplit addTok ("computed.".data ++ name) ≠ [l, r] := by
    intro l r hEq
    rw [pySplit_of_not_contains (by decide) ha] at hEq
    injection hEq with _ h2
    injection h2
  have hsS : ∀ l r : List Char,
      pySplit subTok ("computed.".data ++ name) ≠ [l, r] := by
    intro l r hEq
    rw [pySplit_of_not_contains (by decide) hs] at hEq
    injection hEq with _ h2
    injection h2
  have hcmem : ('c' : Char) ∈ "computed.".data ++ name :=
    List.mem_append_left _ (by decide)
  rw [evaluate_expression_literal qpu? circuit? engine? _
    (by simp [hq]) (by simp [hc])
    (by
      rcases habsent with h | h | h <;> rw [h] <;> simp)
    hmS hdS haS hsS]
  rw [pyInt_of_bad hcmem (by decide) (by decide)]
  rw [pyFloat_of_bad hcmem (by decide) (by decide)]

/-- Witness for C9: the comparison-expression `computed.fidelity`
evaluated with resource and circuit supplied but no engine becomes the
unchanged string. -/
theorem evaluate_expression_computed_no_engine_witness :
    evaluate_expression (some wQpu) (some wCircuit) none
        ("computed.".data ++ "fidelity".data) =
      .ok (.str ("computed.".data ++ "fidelity".data)) :=
  evaluate_expression_computed_no_engine (some wQpu) (some wCircuit) none
    "fidelity".data (Or.inl rfl) (by decide) (by decide) (by decide) (by decide)

/-- The literal stage of `evaluate_expression`: `int`, then `float`,
then the unchanged string. -/
noncomputable def evalLiteral (e : List Char) : Except PyErr Value :=
  match pyInt e with
  | some n => .ok (.num (n : ℝ))
  | none =>
    match pyFloat e with
    | some q => .ok (.num (q : ℝ))
    | none => .ok (.str e)

/-- The subtraction stage of `evaluate_expression` and everything
after it: split on `" - "` when it yields exactly two parts, otherwise
the literal stage. -/
noncomputable def evalFromSub (qpu? : Option QPUResource)
    (circuit? : Option QuantumCircuit) (engine? : Option QuBindEngine)
    (e : List Char) : Except PyErr Value :=
  match pySplit subTok e with
  | [ls, rs] =>
    (evaluate_expression qpu? circuit? engine? (pyStrip ls)).bind fun left =>
      match pyFloat rs with
      | some v => pySubVals left (.num (v : ℝ))
      | none =>
        (evaluate_expression qpu? circuit? engine? (pyStrip rs)).bind fun right =>
          pySubVals left right
  | _ => evalLiteral e

/-- The addition stage of `evaluate_expression` and everything after
it. -/
noncomputable def evalFromAdd (qpu? : Option QPUResource)
    (circuit? : Option QuantumCircuit) (engine? : Option QuBindEngine)
    (e : List Char) : Except PyErr Value :=
  match pySplit addTok e with
  | [la, ra] =>
    (evaluate_expression qpu? circuit? engine? (pyStrip la)).bind fun left =>
      match pyFloat ra with
      | some v => pyAddVals left (.num (v : ℝ))
      | none =>
        (evaluate_expression qpu? circuit? engine? (pyStrip ra)).bind fun right =>
          pyAddVals left right
  | _ => evalFromSub qpu? circuit? engine? e

/-- The division stage of `evaluate_expression` and everything after
it. -/
noncomputable def evalFromDiv (qpu? : Option QPUResource)
    (circuit? : Option QuantumCircuit) (engine? : Option QuBindEngine)
    (e : List Char) : Except PyErr Value :=
  match pySplit divTok e with
  | [ld, rd] =>
    (evaluate_expression qpu? circuit? engine? (pyStrip ld)).bind fun left =>
      match pyFloat rd with
      | some v => pyDivVals left (.num (v : ℝ))
      | none =>
        (evaluate_expression qpu? circuit? engine? (pyStrip rd)).bind fun right =>
          pyDivVals left right
  | _ => evalFromAdd qpu? circuit? engine? e

theorem evalFromDiv_skip (qpu? : Option QPUResource)
    (circuit? : Option QuantumCircuit) (engine? : Option QuBindEngine)
    (e : List Char) (hne : ∀ l r : List Char, pySplit divTok e ≠ [l, r]) :
    evalFromDiv qpu? circuit? engine? e = evalFromAdd qpu? circuit? engine? e := by
  rw [evalFromDiv]
  split
  next l r heq => exact absurd heq (hne l r)
  next => rfl

theorem evalFromAdd_skip (qpu? : Option QPUResource)
    (circuit? : Option QuantumCircuit) (engine? : Option QuBindEngine)
    (e : List Char) (hne : ∀ l r : List Char, pySplit addTok e ≠ [l, r]) :
    evalFromAdd qpu? circuit? engine? e = evalFromSub qpu? circuit? engine? e := by
  rw [evalFromAdd]
  split
  next l r heq => exact absurd heq (hne l r)
  next => rfl

theorem evalFromSub_skip (qpu? : Option QPUResource)
    (circuit? : Option QuantumCircuit) (engine? : Option QuBindEngine)
    (e : List Char) (hne : ∀ l r : List Char, pySplit subTok e ≠ [l, r]) :
    evalFromSub qpu? circuit? engine? e = evalLiteral e := by
  rw [evalFromSub]
  split
  next l r heq => exact absurd heq (hne l r)
  next => rfl

/-- When the property branches are skipped and the `" * "` split does
not yield exactly two parts, `evaluate_expression` is exactly its
division stage onward. -/
theorem evaluate_expression_from_div (qpu? : Option QPUResource)
    (circuit? : Option QuantumCircuit) (engine? : Option QuBindEngine)
    (e : List Char)
    (h1 : ¬("qpu.".data.isPrefixOf e ∧ qpu?.isSome))
    (h2 : ¬("circuit.".data.isPrefixOf e ∧ circuit?.isSome))
    (h3 : ¬("computed.".data.isPrefixOf e ∧ engine?.isSome ∧ qpu?.isSome ∧
      circuit?.isSome))
    (hm : ∀ l r : List Char, pySplit mulTok e ≠ [l, r]) :
    evaluate_expression qpu? circuit? engine? e =
      evalFromDiv qpu? circuit? engine? e := by
  rw [evaluate_expression]
  rw [dif_neg h1, dif_neg h2, dif_neg h3]
  split
  next lm rm heq => exact absurd heq (hm lm rm)
  next =>
    split
    next ld rd heq =>
      rw [evalFromDiv, heq]
    next hdne =>
      rw [evalFromDiv_skip qpu? circuit? engine? e hdne]
      split
      next la ra heq =>
        rw [evalFromAdd, heq]
      next hane =>
        rw [evalFromAdd_skip qpu? circuit? engine? e hane]
        split
        next ls rs heq =>
          rw [evalFromSub, heq]
        next hsne =>
          rw [evalFromSub_skip qpu? circuit? engine? e hsne]
          rfl

/-- C10: an arithmetic operator token occurring more than once (its
split has at least three parts) is never split on: when evaluation
reaches that operator stage — the property branches skipped, and every
higher-priority operator token also failing its exactly-two-parts test
— the stage is skipped and evaluation falls through to the
lower-priority operator stages or to literal parsing, for each of the
four operators `" * "`, `" / "`, `" + "`, `" - "`; other operator
tokens may occur anywhere in the expression. -/
theorem evaluate_expression_repeated_op_skipped (qpu? : Option QPUResource)
    (circuit? : Option QuantumCircuit) (engine? : Option QuBindEngine)
    (e : List Char)
    (h1 : ¬("qpu.".data.isPrefixOf e ∧ qpu?.isSome))
    (h2 : ¬("circuit.".data.isPrefixOf e ∧ circuit?.isSome))
    (h3 : ¬("computed.".data.isPrefixOf e ∧ engine?.isSome ∧ qpu?.isSome ∧
      circuit?.isSome)) :
    (3 ≤ (pySplit mulTok e).length →
      evaluate_expression qpu? circuit? engine? e =
        evalFromDiv qpu? circuit? engine? e) ∧
    ((∀ l r : List Char, pySplit mulTok e ≠ [l, r]) →
      3 ≤ (pySplit divTok e).length →
      evaluate_expression qpu? circuit? engine? e =
        evalFromAdd qpu? circuit? engine? e) ∧
    ((∀ l r : List Char, pySplit mulTok e ≠ [l, r]) →
      (∀ l r : List Char, pySplit divTok e ≠ [l, r]) →
      3 ≤ (pySplit addTok e).length →
      evaluate_expression qpu? circuit? engine? e =
        evalFromSub qpu? circuit? engine? e) ∧
    ((∀ l r : List Char, pySplit mulTok e ≠ [l, r]) →
      (∀ l r : List Char, pySplit divTok e ≠ [l, r]) →
      (∀ l r : List Char, pySplit addTok e ≠ [l, r]) →
      3 ≤ (pySplit subTok e).length →
      evaluate_expression qpu? circuit? engine? e = evalLiteral e) := by
  refine ⟨?_, ?_, ?_, ?_⟩
  · intro hm
    have hmS : ∀ l r : List Char, pySplit mulTok e ≠ [l, r] := by
      intro l r hEq
      rw [hEq] at hm
      simp at hm
    exact evaluate_expression_from_div qpu? circuit? engine? e h1 h2 h3 hmS
  · intro hmS hd
    have hdS : ∀ l r : List Char, pySplit divTok e ≠ [l, r] := by
      intro l r hEq
      rw [hEq] at hd
      simp at hd
    rw [evaluate_expression_from_div qpu? circuit? engine? e h1 h2 h3 hmS]
    exact evalFromDiv_skip qpu? circuit? engine? e hdS
  · intro hmS hdS ha
    have haS : ∀ l r : List Char, pySplit addTok e ≠ [l, r] := by
      intro l r hEq
      rw [hEq] at ha
      simp at ha
    rw [evaluate_expression_from_div qpu? circuit? engine? e h1 h2 h3 hmS,
      evalFromDiv_skip qpu? circuit? engine? e hdS]
    exact evalFromAdd_skip qpu? circuit? engine? e haS
  · intro hmS hdS haS hs
    have hsS : ∀ l r : List Char, pySplit subTok e ≠ [l, r] := by
      intro l r hEq
      rw [hEq] at hs
      simp at hs
    rw [evaluate_expression_from_div qpu? circuit? engine? e h1 h2 h3 hmS,
      evalFromDiv_skip qpu? circuit? engine? e hdS,
      evalFromAdd_skip qpu? circuit? engine? e haS]
    exact evalFromSub_skip qpu? circuit? engine? e hsS

/-- Witness for C10 at the claim's example `1 * 2 * 3`: the doubled
multiplication token is skipped, evaluation falls through to the
division stage onward, and — with no other operator token present —
the expression is returned unchanged as a string. -/
theorem evaluate_expression_repeated_op_skipped_witness :
    evaluate_expression none none none "1 * 2 * 3".data =
      evalFromDiv none none none "1 * 2 * 3".data ∧
    evalFromDiv none none none "1 * 2 * 3".data =
      .ok (.str "1 * 2 * 3".data) := by
  constructor
  · exact (evaluate_expression_repeated_op_skipped none none none "1 * 2 * 3".data
      (by simp) (by simp) (by simp)).1
      (by
        have hsplit : pySplit mulTok "1 * 2 * 3".data =
            ["1".data, "2".data, "3".data] := by
          simp [pySplit, mulTok]
        rw [hsplit]
        simp)
  · have hdS : ∀ l r : List Char, pySplit divTok "1 * 2 * 3".data ≠ [l, r] := by
      intro l r hEq
      rw [pySplit_of_not_contains (by decide) (by decide)] at hEq
      injection hEq with _ h2'
      injection h2'
    have haS : ∀ l r : List Char, pySplit addTok "1 * 2 * 3".data ≠ [l, r] := by
      intro l r hEq
      rw [pySplit_of_not_contains (by decide) (by decide)] at hEq
      injection hEq with _ h2'
      injection h2'
    have hsS : ∀ l r : List Char, pySplit subTok "1 * 2 * 3".data ≠ [l, r] := by
      intro l r hEq
      rw [pySplit_of_not_contains (by decide) (by decide)] at hEq
      injection hEq with _ h2'
      injection h2'
    have hstar : ('*' : Char) ∈ "1 * 2 * 3".data := by decide
    rw [evalFromDiv_skip none none none _ hdS,
      evalFromAdd_skip none none none _ haS,
      evalFromSub_skip none none none _ hsS]
    rw [evalLiteral]
    rw [pyInt_of_bad hstar (by decide) (by decide)]
    rw [pyFloat_of_bad hstar (by decide) (by decide)]

/-- C5 (amended): an expression of the form `a + b * c` with exactly
one multiplication token (the parts contain no star) and no applicable
property-marker branch is split on the `" * "` FIRST — not on the
`" + "` as the claim states: the evaluator combines the evaluation of
`a + b` with `c` by multiplication, parsing `c` as a float first and
recursively evaluating it otherwise. -/
theorem evaluate_expression_splits_mul_first (qpu? : Option QPUResource)
    (circuit? : Option QuantumCircuit) (engine? : Option QuBindEngine)
    (a b c : List Char)
    (hxa : ('*' : Char) ∉ a) (hxb : ('*' : Char) ∉ b) (hxc : ('*' : Char) ∉ c)
    (h1 : ¬("qpu.".data.isPrefixOf (a ++ addTok ++ b ++ mulTok ++ c) ∧ qpu?.isSome))
    (h2 : ¬("circuit.".data.isPrefixOf (a ++ addTok ++ b ++ mulTok ++ c) ∧
      circuit?.isSome))
    (h3 : ¬("computed.".data.isPrefixOf (a ++ addTok ++ b ++ mulTok ++ c) ∧
      engine?.isSome ∧ qpu?.isSome ∧ circuit?.isSome)) :
    evaluate_expression qpu? circuit? engine? (a ++ addTok ++ b ++ mulTok ++ c) =
      (evaluate_expression qpu? circuit? engine? (pyStrip (a ++ addTok ++ b))).bind
        fun left =>
          match pyFloat c with
          | some v => pyMulVals left (.num (v : ℝ))
          | none =>
            (evaluate_expression qpu? circuit? engine? (pyStrip c)).bind fun right =>
              pyMulVals left right := by
  have hxab : ('*' : Char) ∉ a ++ addTok ++ b := by
    intro hmem
    rcases List.mem_append.mp hmem with hmem2 | hmem2
    · rcases List.mem_append.mp hmem2 with hmem3 | hmem3
      · exact hxa hmem3
      · exact absurd hmem3 (by decide)
    · exact hxb hmem2
  have hsplit : pySplit mulTok (a ++ addTok ++ b ++ mulTok ++ c) =
      [a ++ addTok ++ b, c] := pySplit_mulTok_append hxab hxc
  exact evaluate_expression_mul_step qpu? circuit? engine? _ _ _ h1 h2 h3 hsplit

/-- Witness for C5's amended statement at `2 + 3 * 4`. -/
theorem evaluate_expression_splits_mul_first_witness :
    evaluate_expression none none none
        ("2".data ++ addTok ++ "3".data ++ mulTok ++ "4".data) =
      (evaluate_expression none none none
          (pyStrip ("2".data ++ addTok ++ "3".data))).bind
        fun left =>
          match pyFloat "4".data with
          | some v => pyMulVals left (.num (v : ℝ))
          | none =>
            (evaluate_expression none none none (pyStrip "4".data)).bind
              fun right => pyMulVals left right :=
  evaluate_expression_splits_mul_first none none none "2".data "3".data "4".data
    (by decide) (by decide) (by decide) (by simp) (by simp) (by simp)

/-- Counterexample to C5 as stated: on `2 + 3 * 4` the evaluator
produces `(2 + 3) * 4 = 20`, not the `2 + (3 * 4) = 14` that a
plus-first split would give. -/
theorem evaluate_expression_precedence_counterexample :
    evaluate_expression none none none "2 + 3 * 4".data = .ok (.num 20) ∧
    (Except.ok (Value.num 20) : Except PyErr Value) ≠ .ok (.num 14) := by
  constructor
  · have hsplit : pySplit mulTok "2 + 3 * 4".data = ["2 + 3".data, "4".data] := by
      simp [pySplit, mulTok]
    rw [evaluate_expression_mul_step none none none _ _ _ (by simp) (by simp)
      (by simp) hsplit]
    have hstrip : pyStrip "2 + 3".data = "2 + 3".data := by decide
    rw [hstrip]
    have haddsplit : pySplit addTok "2 + 3".data = ["2".data, "3".data] := by
      simp [pySplit, addTok]
    have hmne : ∀ l r : List Char, pySplit mulTok "2 + 3".data ≠ [l, r] := by
      intro l r hEq
      rw [pySplit_of_not_contains (by decide) (by decide)] at hEq
      injection hEq with _ h2'
      injection h2'
    have hdne : ∀ l r : List Char, pySplit divTok "2 + 3".data ≠ [l, r] := by
      intro l r hEq
      rw [pySplit_of_not_contains (by decide) (by decide)] at hEq
      injection hEq with _ h2'
      injection h2'
    rw [evaluate_expression_add_step none none none _ _ _ (by simp) (by simp)
      (by simp) hmne hdne haddsplit]
    have hstrip2 : pyStrip "2".data = "2".data := by decide
    rw [hstrip2]
    have h2lit : evaluate_expression none none none "2".data = .ok (.num ((2 : Int) : ℝ)) := by
      rw [evaluate_expression_literal none none none _ (by simp) (by simp) (by simp)
        (by
          intro l r hEq
          rw [pySplit_of_not_contains (by decide) (by decide)] at hEq
          injection hEq with _ h2'
          injection h2')
        (by
          intro l r hEq
          rw [pySplit_of_not_contains (by decide) (by decide)] at hEq
          injection hEq with _ h2'
          injection h2')
        (by
          intro l r hEq
          rw [pySplit_of_not_contains (by decide) (by decide)] at hEq
          injection hEq with _ h2'
          injection h2')
        (by
          intro l r hEq
          rw [pySplit_of_not_contains (by decide) (by decide)] at hEq
          injection hEq with _ h2'
          injection h2')]
      have : pyInt "2".data = some 2 := by decide
      rw [this]
    rw [h2lit]
    have h3f : pyFloat "3".data = some 3 := by decide
    have h4f : pyFloat "4".data = some 4 := by decide
    rw [h3f, h4f]
    show (pyAddVals (.num ((2 : Int) : ℝ)) (.num ((3 : ℚ) : ℝ))).bind
        (fun left => pyMulVals left (.num ((4 : ℚ) : ℝ))) = .ok (.num 20)
    simp only [pyAddVals, pyMulVals, numOf]
    show Except.ok (Value.num ((((2 : Int) : ℝ) + ((3 : ℚ) : ℝ)) * ((4 : ℚ) : ℝ))) =
      .ok (.num 20)
    norm_num
  · intro h
    injection h with h2'
    injection h2' with h3'
    norm_num at h3'

/-- C8: the ranked list contains exactly one entry per feasible
resource, each carrying that resource's figure of merit (it is a
permutation of the entry list built in pool order), is sorted
ascending by figure of merit, and the sort is stable: for every score,
the entries with that score appear in the same order as in the
pool-ordered entry list. -/
theorem rank_qpus_spec (feasible : List QPUResource) (circuit : QuantumCircuit)
    (weights : OptimizationWeights) :
    (rank_qpus feasible circuit weights).Perm
      (feasible.map (mkRankedEntry circuit weights)) ∧
    List.Sorted (fun a b => a.figure_of_merit ≤ b.figure_of_merit)
      (rank_qpus feasible circuit weights) ∧
    ∀ k : ℝ,
      (rank_qpus feasible circuit weights).filter
          (fun entry => decide (entry.figure_of_merit = k)) =
        (feasible.map (mkRankedEntry circuit weights)).filter
          (fun entry => decide (entry.figure_of_merit = k)) := by
  unfold rank_qpus pyStableSort
  refine ⟨?_, ?_, ?_⟩
  · have := foldl_stableInsert_perm (fun entry : RankedEntry => entry.figure_of_merit)
      (feasible.map (mkRankedEntry circuit weights)) []
    simpa using this
  · exact foldl_stableInsert_sorted _ _ [] (by simp)
  · intro k
    have := filter_foldl_stableInsert
      (fun entry : RankedEntry => entry.figure_of_merit) k
      (feasible.map (mkRankedEntry circuit weights)) [] (by simp)
    simpa using this

end QuBind
